import Mathlib

set_option maxRecDepth 100000

/-
Verification of the sbomgen dependency-extraction pipeline
(package `analyzer` of github.com/hallucinaut/sbomgen).

The embedding models the directory walker `ProjectAnalyzer.AnalyzeDir`
(built on Go `filepath.Walk`), the analyzer dispatch, and the five
ecosystem manifest parsers (npm, PyPI, Go modules, Cargo, Maven).

String handling mirrors the Go standard library at the character level:
`strings.Index`, `strings.Split`, `strings.SplitN`, `strings.Fields`,
`strings.TrimSpace`, `strings.Trim`, `strings.HasPrefix`,
`strings.Contains` and `path/filepath.Base` are re-implemented as
executable functions on `List Char` / `String`.  Positions count
characters; this agrees with Go byte offsets on ASCII data and is
offset-consistent otherwise, because all positions in the source flow
from `strings.Index` results of the same unit.
-/

/-- Character index of the first occurrence of `pat` in `cs`; `none`
when `pat` does not occur.  Models Go `strings.Index` (which reports -1
for a missing pattern).  `findSub cs [] = some 0`, as in Go. -/
def findSub : List Char → List Char → Option Nat
  | [], pat => if pat = [] then some 0 else none
  | c :: tl, pat =>
    if pat.isPrefixOf (c :: tl) then some 0 else (findSub tl pat).map (· + 1)

/-- Go `strings.Index` on strings (`none` = -1). -/
def goIndex (s sub : String) : Option Nat :=
  findSub s.data sub.data

/-- Go `strings.Contains`. -/
def strContains (s sub : String) : Bool :=
  (goIndex s sub).isSome

/-- Go `strings.HasPrefix`. -/
def strStartsWith (s pre : String) : Bool :=
  pre.data.isPrefixOf s.data

/-- Character-list core of Go `strings.TrimSpace`. -/
def trimSpaceL (cs : List Char) : List Char :=
  ((cs.dropWhile Char.isWhitespace).reverse.dropWhile Char.isWhitespace).reverse

/-- Go `strings.TrimSpace` (whitespace = space, tab, CR, LF). -/
def goTrimSpace (s : String) : String :=
  String.mk (trimSpaceL s.data)

/-- Go `strings.Trim` with a one-character cutset. -/
def goTrim (s : String) (c : Char) : String :=
  String.mk (((s.data.dropWhile (· = c)).reverse.dropWhile (· = c)).reverse)

/-- Fuel-indexed worker for Go `strings.Split`: scans `cs`, emitting the
accumulated chunk (held reversed in `acc`) at each occurrence of `sep`.
Any fuel exceeding the length of `cs` yields the exact Go semantics. -/
def splitGo (sep : List Char) : Nat → List Char → List Char → List (List Char)
  | _, [], acc => [acc.reverse]
  | 0, rest, acc => [acc.reverse ++ rest]
  | fuel + 1, c :: cs, acc =>
    if sep.isPrefixOf (c :: cs) then
      acc.reverse :: splitGo sep fuel ((c :: cs).drop sep.length) []
    else
      splitGo sep fuel cs (c :: acc)

/-- Go `strings.Split` (split around every occurrence of `sep`; an empty
separator explodes the string into its characters). -/
def goSplit (s sep : String) : List String :=
  if sep = "" then s.data.map (fun c => String.mk [c])
  else (splitGo sep.data (s.data.length + 1) s.data []).map String.mk

/-- Go `strings.SplitN` with count 2 and a non-empty separator: at most
one split, located at the first occurrence of `sep`. -/
def goSplitN2 (s sep : String) : List String :=
  match goIndex s sep with
  | none => [s]
  | some i => [String.mk (s.data.take i), String.mk ((s.data.drop i).drop sep.length)]

/-- Go `strings.Fields` worker: groups maximal runs of non-whitespace
characters, the current group held reversed in `cur`. -/
def fieldsL : List Char → List Char → List (List Char)
  | [], cur => if cur = [] then [] else [cur.reverse]
  | c :: cs, cur =>
    if c.isWhitespace then
      if cur = [] then fieldsL cs [] else cur.reverse :: fieldsL cs []
    else fieldsL cs (c :: cur)

/-- Go `strings.Fields`. -/
def goFields (s : String) : List String :=
  (fieldsL s.data []).map String.mk

/-- Go slice `s[a:b]` (character positions). -/
def strSlice (s : String) (a b : Nat) : String :=
  String.mk ((s.data.take b).drop a)

/-- Go slice `s[n:]` (character position). -/
def strDrop (s : String) (n : Nat) : String :=
  String.mk (s.data.drop n)

/-- Go slice `s[:n]` (character position). -/
def strTake (s : String) (n : Nat) : String :=
  String.mk (s.data.take n)

/-- Go `path/filepath.Base`: empty path gives ".", trailing slashes are
stripped, an all-slash path gives "/", otherwise the text after the
last slash. -/
def goBase (path : String) : String :=
  if path = "" then "."
  else
    let p := (path.data.reverse.dropWhile (· = '/')).reverse
    if p = [] then "/"
    else String.mk ((p.reverse.takeWhile (· ≠ '/')).reverse)

/-! ## Data model -/

/-- Modelled from the spec: `sbom.Metadata` as used by the analyzer
(the `sbom` package source is not under `src/`); only the
`Description` field is ever written, as the free-form development-
dependency annotation. -/
structure Metadata where
  description : String := ""
deriving DecidableEq

/-- Modelled from the spec: the Component Record `sbom.Component` as
used by the analyzer (the `sbom` package source is not under `src/`).
Fields are exactly those the analyzer writes: `Name`, `Version`,
`Supplier` (the ecosystem tag), `PURL` and `Metadata`. -/
structure Component where
  name : String
  version : String
  supplier : String
  purl : String
  metadata : Metadata := {}
deriving DecidableEq

/-- The anonymous struct `NPMAnalyzer.Analyze` unmarshals `package.json`
into.  The two dependency maps are carried as association lists, in the
(unspecified) order a Go `range` over the map yields the entries in one
particular run. -/
structure NpmPkg where
  name : String := ""
  version : String := ""
  dependencies : List (String × String) := []
  devDeps : List (String × String) := []
deriving DecidableEq

/-- The bytes of one regular file, as consumed by the analyzers.
`text` is the raw content.  `jsonView` models the result of Go
`json.Unmarshal` of those same bytes into `NPMAnalyzer.Analyze`'s
package struct (`none` = unmarshal error); it is carried alongside the
raw text because the embedding does not include a JSON parser. -/
structure Content where
  text : String := ""
  jsonView : Option NpmPkg := none
deriving DecidableEq

/-! ## The five ecosystem parsers -/

/-- The two record-building loops of `NPMAnalyzer.Analyze`: one record
per entry of "dependencies", then one per entry of "devDependencies",
the latter annotated as development dependencies. -/
def npmComponents (pkg : NpmPkg) : List Component :=
  pkg.dependencies.map (fun e =>
    { name := e.1, version := e.2, supplier := "npm",
      purl := "pkg:npm/" ++ e.1 ++ "@" ++ e.2 }) ++
  pkg.devDeps.map (fun e =>
    { name := e.1, version := e.2, supplier := "npm",
      purl := "pkg:npm/" ++ e.1 ++ "@" ++ e.2,
      metadata := { description := "development dependency" } })

/-- `NPMAnalyzer.Analyze`: a failed `os.ReadFile` or a failed
`json.Unmarshal` is a hard error; otherwise the records of the two
dependency maps.  The argument is the read file (`none` = read error). -/
def NPMAnalyze : Option Content → Except String (List Component)
  | none => .error "read error"
  | some c =>
    match c.jsonView with
    | none => .error "unmarshal error"
    | some pkg => .ok (npmComponents pkg)

/-- The operator-selection chain of `PyPIAnalyzer.Analyze`: the parts
of the `strings.Split` on `"=="`, re-split on `">="` when that gave
fewer than two parts, then on `"<="` when both did. -/
def pypiPickParts (line : String) : List String :=
  let parts0 := goSplit line "=="
  let parts1 := if parts0.length < 2 then goSplit line ">=" else parts0
  if parts1.length < 2 then goSplit line "<=" else parts1

/-- One line of `PyPIAnalyzer.Analyze`: trim; skip blank and `#` lines;
with at least two parts of the operator split, emit one record from
parts 0 and 1, each trimmed. -/
def pypiLineComponents (rawLine : String) : List Component :=
  let line := goTrimSpace rawLine
  if line == "" || strStartsWith line "#" then []
  else
    match pypiPickParts line with
    | p0 :: p1 :: _ =>
      let name := goTrimSpace p0
      let version := goTrimSpace p1
      [{ name := name, version := version, supplier := "pypi",
         purl := "pkg:pypi/" ++ name ++ "@" ++ version }]
    | _ => []

/-- The line loop of `PyPIAnalyzer.Analyze` over the file content. -/
def pypiParse (content : String) : List Component :=
  (goSplit content "\n").flatMap pypiLineComponents

/-- `PyPIAnalyzer.Analyze` (`none` = read error). -/
def PyPIAnalyze : Option Content → Except String (List Component)
  | none => .error "read error"
  | some c => .ok (pypiParse c.text)

/-- The candidate test of `GoAnalyzer.Analyze` on a trimmed line:
`strings.HasPrefix(line, "require ")` or (non-empty and
`strings.Contains(line, " ")` — a literal space character). -/
def goCandidate (line : String) : Bool :=
  strStartsWith line "require " || (line != "" && strContains line " ")

/-- One line of `GoAnalyzer.Analyze`: for a candidate line with at
least two whitespace-separated fields, one record whose name is
`filepath.Base` of the first field and whose version is the second. -/
def goLineComponents (rawLine : String) : List Component :=
  let line := goTrimSpace rawLine
  if goCandidate line then
    match goFields line with
    | p0 :: p1 :: _ =>
      let name := goTrimSpace p0
      let version := goTrimSpace p1
      [{ name := goBase name, version := version, supplier := "go",
         purl := "pkg:go/" ++ goBase name ++ "@" ++ version }]
    | _ => []
  else []

/-- The line loop of `GoAnalyzer.Analyze` over the file content. -/
def goParse (content : String) : List Component :=
  (goSplit content "\n").flatMap goLineComponents

/-- `GoAnalyzer.Analyze` (`none` = read error). -/
def GoAnalyze : Option Content → Except String (List Component)
  | none => .error "read error"
  | some c => .ok (goParse c.text)

/-- The dependency-entry parse of the `CargoAnalyzer.Analyze` loop
body: `strings.SplitN(line, "=", 2)`, then either the inline-table
extraction (text between the first and second `"` of the value,
located with `strings.Index`) or the bare-string form with
`"`-characters trimmed from both ends. -/
def cargoEntryComponents (line : String) : List Component :=
  match goSplitN2 line "=" with
  | [p0, p1] =>
    let name := goTrimSpace p0
    let versionPart := goTrimSpace p1
    if strStartsWith versionPart "\x7b" then
      match goIndex versionPart "\"" with
      | none => []
      | some versionStart =>
        match goIndex (strDrop versionPart (versionStart + 1)) "\"" with
        | none => []
        | some versionEnd =>
          let version := strSlice versionPart (versionStart + 1) (versionStart + versionEnd + 1)
          [{ name := name, version := version, supplier := "cargo",
             purl := "pkg:cargo/" ++ name ++ "@" ++ version }]
    else
      let version := goTrim versionPart '\"'
      [{ name := name, version := version, supplier := "cargo",
         purl := "pkg:cargo/" ++ name ++ "@" ++ version }]
  | _ => []

/-- One line of `CargoAnalyzer.Analyze`, with the current
inside-`[dependencies]` state: prefix tests for `"[dependencies]"` and
`"["` update the state; inside the section, non-blank non-comment
lines are parsed as entries. -/
def cargoLineStep (inDependencies : Bool) (rawLine : String) : Bool × List Component :=
  let line := goTrimSpace rawLine
  if strStartsWith line "[dependencies]" then (true, [])
  else if strStartsWith line "[" then (false, [])
  else if inDependencies && line != "" && !(strStartsWith line "#") then
    (inDependencies, cargoEntryComponents line)
  else (inDependencies, [])

/-- The stateful line loop of `CargoAnalyzer.Analyze`. -/
def cargoParse (content : String) : List Component :=
  ((goSplit content "\n").foldl
    (fun acc l =>
      let r := cargoLineStep acc.1 l
      (r.1, acc.2 ++ r.2))
    (false, [])).2

/-- `CargoAnalyzer.Analyze` (`none` = read error). -/
def CargoAnalyze : Option Content → Except String (List Component)
  | none => .error "read error"
  | some c => .ok (cargoParse c.text)

/-- `extractTag`: text between the first `<tag>` and the first
`</tag>` after it on the given line, or `""` when either is absent. -/
def extractTag (line tag : String) : String :=
  let startTag := "<" ++ tag ++ ">"
  let endTag := "</" ++ tag ++ ">"
  match goIndex line startTag with
  | none => ""
  | some idx =>
    let start := idx + startTag.length
    match goIndex (strDrop line start) endTag with
    | none => ""
    | some e => strSlice line start (start + e)

/-- One line of `parsePomXML`, with the current inside-`<dependencies>`
state: substring matches of `<dependencies>` / `</dependencies>`
toggle the state; inside the section, a line containing both
`<artifactId>` and `</artifactId>` emits one record when both the
artifactId text and the version text extracted from that same line are
non-empty. -/
def mavenLineStep (inDependencies : Bool) (rawLine : String) : Bool × List Component :=
  let line := goTrimSpace rawLine
  if strContains line "<dependencies>" then (true, [])
  else if strContains line "</dependencies>" then (false, [])
  else if inDependencies then
    if strContains line "<artifactId>" && strContains line "</artifactId>" then
      let artifactId := extractTag line "artifactId"
      let version := extractTag line "version"
      if artifactId != "" && version != "" then
        (inDependencies, [{ name := artifactId, version := version, supplier := "maven",
                            purl := "pkg:maven/" ++ artifactId ++ "@" ++ version }])
      else (inDependencies, [])
    else (inDependencies, [])
  else (inDependencies, [])

/-- The stateful line loop `parsePomXML`. -/
def parsePomXML (xmlContent : String) : List Component :=
  ((goSplit xmlContent "\n").foldl
    (fun acc l =>
      let r := mavenLineStep acc.1 l
      (r.1, acc.2 ++ r.2))
    (false, [])).2

/-- `MavenAnalyzer.Analyze` (`none` = read error); parse itself never
fails. -/
def MavenAnalyze : Option Content → Except String (List Component)
  | none => .error "read error"
  | some c => .ok (parsePomXML c.text)

deriving instance DecidableEq for Except

/-! ## Analyzer registry and dispatch -/

/-- One (matcher, parser) pair of the `Analyzer` interface.  `analyze`
takes the outcome of reading the path (`none` = `os.ReadFile` error,
which is what reading a directory or an unreadable file produces). -/
structure AnalyzerI where
  name : String
  shouldAnalyze : String → Bool
  analyze : Option Content → Except String (List Component)

/-- `NPMAnalyzer`: applies to paths whose base name is `package.json`. -/
def npmAnalyzerI : AnalyzerI :=
  { name := "npm",
    shouldAnalyze := fun path => goBase path == "package.json",
    analyze := NPMAnalyze }

/-- `PyPIAnalyzer`: applies to paths whose base name is `requirements.txt`. -/
def pypiAnalyzerI : AnalyzerI :=
  { name := "pypi",
    shouldAnalyze := fun path => goBase path == "requirements.txt",
    analyze := PyPIAnalyze }

/-- `GoAnalyzer`: applies to paths whose base name is `go.mod`. -/
def goAnalyzerI : AnalyzerI :=
  { name := "go",
    shouldAnalyze := fun path => goBase path == "go.mod",
    analyze := GoAnalyze }

/-- `CargoAnalyzer`: applies to paths whose base name is `Cargo.toml`. -/
def cargoAnalyzerI : AnalyzerI :=
  { name := "cargo",
    shouldAnalyze := fun path => goBase path == "Cargo.toml",
    analyze := CargoAnalyze }

/-- `MavenAnalyzer`: applies to paths whose base name is `pom.xml`. -/
def mavenAnalyzerI : AnalyzerI :=
  { name := "maven",
    shouldAnalyze := fun path => goBase path == "pom.xml",
    analyze := MavenAnalyze }

/-- The registry built by `NewProjectAnalyzer`, in registration order. -/
def analyzers : List AnalyzerI :=
  [npmAnalyzerI, pypiAnalyzerI, goAnalyzerI, cargoAnalyzerI, mavenAnalyzerI]

/-- What one analyzer adds for one visited path inside the walk
callback: nothing unless its matcher accepts the path; a parser error
is swallowed (the `continue` branch) and contributes nothing. -/
def analyzerContribution (a : AnalyzerI) (path : String) (r : Option Content) : List Component :=
  if a.shouldAnalyze path then
    match a.analyze r with
    | .ok components => components
    | .error _ => []
  else []

/-- The analyzer loop of the walk callback: every analyzer is consulted
for every visited path, contributions concatenated in registration
order. -/
def runAnalyzers (path : String) (r : Option Content) : List Component :=
  analyzers.flatMap (fun a => analyzerContribution a path r)

/-! ## Filesystem model and the directory walk -/

/-- A filesystem snapshot node.  A `file` carries the outcome of
reading it (`none` = read error such as permission denied); a `dir`
carries a flag for a directory whose listing fails (`readErr`) and its
children; `broken` is an entry whose `lstat` fails during the walk. -/
inductive FS where
  | file (name : String) (content : Option Content)
  | broken (name : String)
  | dir (name : String) (readErr : Bool) (children : List FS)

/-- The base name of the node (what `info.Name()` reports). -/
def FS.fname : FS → String
  | .file n _ => n
  | .broken n => n
  | .dir n _ _ => n

/-- Whether the node is a directory (`info.IsDir()`). -/
def FS.isDir : FS → Bool
  | .dir _ _ _ => true
  | _ => false

/-- What `os.ReadFile` returns at this node: file content for a
regular file, an error (`none`) for a directory. -/
def readFile : FS → Option Content
  | .file _ c => c
  | _ => none

/-- The pruned directory names of `AnalyzeDir`. -/
def prunedName (n : String) : Bool :=
  n == "node_modules" || n == "vendor" || n == ".git" || n == "dist" || n == "build"

/-- What the walk callback returns to `filepath.Walk`: `nil`
(continue), `filepath.SkipDir`, or a real error. -/
inductive WalkRet where
  | ok
  | skipDir
  | fail (msg : String)
deriving DecidableEq

/-- The anonymous callback of `AnalyzeDir` (the `filepath.WalkFunc`):
any incoming walk error is swallowed (`return nil`); a directory with a
pruned name returns `SkipDir`; otherwise every analyzer runs on the
path.  Returns the records this visit appends and the callback's
result. -/
def walkFn (path : String) (node : Option FS) (err : Option String) : List Component × WalkRet :=
  match err with
  | some _ => ([], .ok)
  | none =>
    match node with
    | none => ([], .ok)
    | some nd =>
      if nd.isDir && prunedName nd.fname then ([], .skipDir)
      else (runAnalyzers path (readFile nd), .ok)

mutual

/-- The recursive worker of Go `filepath.Walk`, specialised to the
`AnalyzeDir` callback.  For a regular file the callback runs once.  For
a directory the listing is attempted first: a listing error is passed
to the callback (whose result is returned, ending this subtree);
otherwise the callback runs with a nil error, `SkipDir` ends the
subtree, and the children are visited in order.  Returns the records
collected under this node and the walk result bubbling up. -/
def walkNode : FS → String → List Component × WalkRet
  | .file n c, path => walkFn path (some (.file n c)) none
  | .broken n, path => walkFn path (some (.broken n)) none
  | .dir n true cs, path => walkFn path (some (.dir n true cs)) (some "readdir error")
  | .dir n false cs, path =>
    let fnr := walkFn path (some (.dir n false cs)) none
    match fnr.2 with
    | .ok =>
      let rest := walkChildren cs path
      (fnr.1 ++ rest.1, rest.2)
    | r => (fnr.1, r)

/-- The child loop of the `filepath.Walk` worker: each entry is
`lstat`-ed (a `broken` entry reports the error to the callback, which
swallows it, and the loop continues), then recursively walked;
`SkipDir` from a directory child is swallowed, `SkipDir` from a file
child aborts the remaining entries, and a real error aborts the walk. -/
def walkChildren : List FS → String → List Component × WalkRet
  | [], _ => ([], .ok)
  | c :: cs, dirPath =>
    let filename := dirPath ++ "/" ++ c.fname
    match c with
    | .broken _ =>
      let fnr := walkFn filename none (some "lstat error")
      match fnr.2 with
      | .fail e => (fnr.1, .fail e)
      | _ =>
        let rest := walkChildren cs dirPath
        (fnr.1 ++ rest.1, rest.2)
    | nd =>
      let wr := walkNode nd filename
      match wr.2 with
      | .ok =>
        let rest := walkChildren cs dirPath
        (wr.1 ++ rest.1, rest.2)
      | .skipDir =>
        if nd.isDir then
          let rest := walkChildren cs dirPath
          (wr.1 ++ rest.1, rest.2)
        else (wr.1, .skipDir)
      | .fail e => (wr.1, .fail e)

end

/-- `filepath.Walk(root, fn)`: if `lstat` of the root fails (`root =
none`) the callback is invoked once with that error; otherwise the
worker runs; a `SkipDir` bubbling out of the root is converted to nil.
Returns the collected records and the walk's error. -/
def Walk (root : Option FS) (rootPath : String) : List Component × Option String :=
  match root with
  | none =>
    let fnr := walkFn rootPath none (some "lstat root error")
    (fnr.1, match fnr.2 with | .fail e => some e | _ => none)
  | some nd =>
    let wr := walkNode nd rootPath
    (wr.1, match wr.2 with | .fail e => some e | _ => none)

/-- `ProjectAnalyzer.AnalyzeDir`: walk the tree, aggregating every
analyzer's records; a non-nil walk error is wrapped and returned with a
nil slice. -/
def AnalyzeDir (root : Option FS) (dir : String) : Except String (List Component) :=
  match Walk root dir with
  | (recs, none) => .ok recs
  | (_, some e) => .error ("directory walk failed: " ++ e)

/-! ## The walk never produces an error -/

/-- The callback returns either nil or `SkipDir`, never an error: every
incoming walk error is swallowed by its first branch. -/
theorem walkFn_ret (path : String) (node : Option FS) (err : Option String) :
    (walkFn path node err).2 = WalkRet.ok ∨ (walkFn path node err).2 = WalkRet.skipDir := by
  unfold walkFn
  rcases err with _ | e
  · rcases node with _ | nd
    · left; rfl
    · by_cases h : nd.isDir && prunedName nd.fname
      · right; simp [h]
      · left; simp [h]
  · left; rfl

mutual

/-- No subtree walk ever returns a real error. -/
theorem walkNode_ret (t : FS) (path : String) :
    (walkNode t path).2 = WalkRet.ok ∨ (walkNode t path).2 = WalkRet.skipDir := by
  cases t with
  | file n c => rw [walkNode]; exact walkFn_ret path (some (.file n c)) none
  | broken n => rw [walkNode]; exact walkFn_ret path (some (.broken n)) none
  | dir n readErr cs =>
    cases readErr with
    | true => rw [walkNode]; exact walkFn_ret path (some (.dir n true cs)) (some "readdir error")
    | false =>
      rw [walkNode]
      rcases walkFn_ret path (some (.dir n false cs)) none with h | h <;> rw [h] <;> simp
      · exact walkChildren_ret cs path

/-- No child loop ever returns a real error. -/
theorem walkChildren_ret (l : List FS) (dirPath : String) :
    (walkChildren l dirPath).2 = WalkRet.ok ∨ (walkChildren l dirPath).2 = WalkRet.skipDir := by
  cases l with
  | nil => left; rw [walkChildren]
  | cons c cs =>
    cases c with
    | broken n =>
      rw [walkChildren]
      simp only [walkFn]
      exact walkChildren_ret cs dirPath
    | file n co =>
      have hside : ∀ name : String, FS.file n co = FS.broken name → False := by
        intro name h
        cases h
      rw [walkChildren]
      case x_2 => exact hside
      rcases walkNode_ret (.file n co) (dirPath ++ "/" ++ (FS.file n co).fname) with h | h <;>
        simp only [h, FS.isDir]
      · exact walkChildren_ret cs dirPath
      · right; rfl
    | dir n e cs2 =>
      have hside : ∀ name : String, FS.dir n e cs2 = FS.broken name → False := by
        intro name h
        cases h
      rw [walkChildren]
      case x_2 => exact hside
      rcases walkNode_ret (.dir n e cs2) (dirPath ++ "/" ++ (FS.dir n e cs2).fname) with h | h <;>
        simp only [h, FS.isDir, if_true]
      · exact walkChildren_ret cs dirPath
      · exact walkChildren_ret cs dirPath

end

/-- `AnalyzeDir` always succeeds, whatever the tree and root. -/
theorem analyzeDir_ok (root : Option FS) (dir : String) :
    AnalyzeDir root dir = Except.ok (Walk root dir).1 := by
  rcases root with _ | nd
  · simp [AnalyzeDir, Walk, walkFn]
  · rcases walkNode_ret nd dir with h | h <;> simp [AnalyzeDir, Walk, h]

/-! ## Claim C1 -/

/-- C1, counterexample.  The claim: the error returned by `AnalyzeDir`
is non-nil exactly when the walk cannot start at all (e.g. the root
does not exist).  In the code, when `lstat` of the root fails,
`filepath.Walk` hands that error to the callback, whose first branch
(`if err != nil { return nil }`) swallows it — so even for a
non-existent root the error is nil and the aggregate is empty, making
the error-wrapping branch of `AnalyzeDir` unreachable. -/
theorem C1_counterexample :
    AnalyzeDir none "/missing" = Except.ok [] ∧
    ∀ e, AnalyzeDir none "/missing" ≠ Except.error e := by
  refine ⟨by decide, ?_⟩
  intro e h
  rw [analyzeDir_ok] at h
  cases h

/-- C1, amended: `AnalyzeDir` never returns a non-nil error for any
input, root present or not: every filesystem-walk error, including a
failure to stat the root itself, is swallowed by the callback. -/
theorem C1_amended_always_ok (root : Option FS) (dir : String) :
    ∃ l, AnalyzeDir root dir = Except.ok l :=
  ⟨(Walk root dir).1, analyzeDir_ok root dir⟩

/-! ## Characterisation of the walk, case by case -/

/-- The callback swallows any reported error. -/
theorem walkFn_err (path : String) (node : Option FS) (e : String) :
    walkFn path node (some e) = ([], WalkRet.ok) := rfl

/-- Visiting a regular file runs all analyzers on its content. -/
theorem walkNode_file (n : String) (c : Option Content) (path : String) :
    walkNode (.file n c) path = (runAnalyzers path c, WalkRet.ok) := by
  rw [walkNode]
  simp [walkFn, FS.isDir, readFile]

/-- Visiting a broken node runs all analyzers on a failed read. -/
theorem walkNode_broken (n : String) (path : String) :
    walkNode (.broken n) path = (runAnalyzers path none, WalkRet.ok) := by
  rw [walkNode]
  simp [walkFn, FS.isDir, readFile]

/-- A directory whose listing fails contributes nothing: the callback
is invoked once with the listing error and swallows it. -/
theorem walkNode_dir_readErr (n : String) (cs : List FS) (path : String) :
    walkNode (.dir n true cs) path = ([], WalkRet.ok) := by
  rw [walkNode]
  rfl

/-- A pruned directory returns `SkipDir` before any child is visited. -/
theorem walkNode_dir_pruned (n : String) (cs : List FS) (path : String)
    (h : prunedName n = true) :
    walkNode (.dir n false cs) path = ([], WalkRet.skipDir) := by
  rw [walkNode]
  simp [walkFn, FS.isDir, FS.fname, h]

/-- A readable, non-pruned directory runs the analyzers on its own
path (whose read fails, being a directory) and then its children. -/
theorem walkNode_dir_plain (n : String) (cs : List FS) (path : String)
    (h : prunedName n = false) :
    walkNode (.dir n false cs) path =
      (runAnalyzers path none ++ (walkChildren cs path).1, (walkChildren cs path).2) := by
  rw [walkNode]
  simp [walkFn, FS.isDir, FS.fname, readFile, h]

/-- A broken child is reported to the callback, swallowed, and the
loop continues. -/
theorem walkChildren_cons_broken (n : String) (cs : List FS) (p : String) :
    walkChildren (.broken n :: cs) p = walkChildren cs p := by
  rw [walkChildren]
  simp [walkFn]

/-- A file child contributes its analyzer records and the loop
continues. -/
theorem walkChildren_cons_file (n : String) (c : Option Content) (cs : List FS) (p : String) :
    walkChildren (.file n c :: cs) p =
      (runAnalyzers (p ++ "/" ++ n) c ++ (walkChildren cs p).1, (walkChildren cs p).2) := by
  rw [walkChildren]
  case x_2 =>
    intro name h
    cases h
  simp [walkNode_file, FS.fname, FS.isDir]

/-- A directory child contributes its subtree records (its `SkipDir`,
if any, is swallowed because the child is a directory) and the loop
continues. -/
theorem walkChildren_cons_dir (n : String) (e : Bool) (cs2 cs : List FS) (p : String) :
    walkChildren (.dir n e cs2 :: cs) p =
      ((walkNode (.dir n e cs2) (p ++ "/" ++ n)).1 ++ (walkChildren cs p).1,
        (walkChildren cs p).2) := by
  rw [walkChildren]
  case x_2 =>
    intro name h
    cases h
  rcases walkNode_ret (.dir n e cs2) (p ++ "/" ++ n) with h | h <;>
    simp [FS.fname, FS.isDir, h]

/-! ## Claim C2: pruned directories contribute nothing -/

mutual

/-- Replace the children of every directory whose base name is pruned
(`node_modules`, `vendor`, `.git`, `dist`, `build`), at any depth, by
the empty list. -/
def emptyPruned : FS → FS
  | .file n c => .file n c
  | .broken n => .broken n
  | .dir n e cs => if prunedName n then .dir n e [] else .dir n e (emptyPrunedList cs)

/-- `emptyPruned` on every node of a list. -/
def emptyPrunedList : List FS → List FS
  | [] => []
  | c :: cs => emptyPruned c :: emptyPrunedList cs

end

mutual

/-- Walking a tree with the contents of pruned directories deleted
gives exactly the same records and result: nothing under a pruned
directory is ever visited. -/
theorem walkNode_emptyPruned (t : FS) (path : String) :
    walkNode (emptyPruned t) path = walkNode t path := by
  cases t with
  | file n c => rfl
  | broken n => rfl
  | dir n e cs =>
    by_cases h : prunedName n
    · simp only [emptyPruned, h, if_true]
      cases e with
      | true => rw [walkNode_dir_readErr, walkNode_dir_readErr]
      | false => rw [walkNode_dir_pruned _ _ _ h, walkNode_dir_pruned _ _ _ h]
    · have h2 : prunedName n = false := by simpa using h
      simp only [emptyPruned, h2, Bool.false_eq_true, if_false]
      cases e with
      | true => rw [walkNode_dir_readErr, walkNode_dir_readErr]
      | false =>
        rw [walkNode_dir_plain _ _ _ h2, walkNode_dir_plain _ _ _ h2]
        rw [walkChildren_emptyPruned cs path]

/-- List version of `walkNode_emptyPruned`. -/
theorem walkChildren_emptyPruned (l : List FS) (dirPath : String) :
    walkChildren (emptyPrunedList l) dirPath = walkChildren l dirPath := by
  cases l with
  | nil => rfl
  | cons c cs =>
    rw [emptyPrunedList]
    cases c with
    | broken n =>
      rw [show emptyPruned (FS.broken n) = FS.broken n from rfl]
      rw [walkChildren_cons_broken, walkChildren_cons_broken]
      exact walkChildren_emptyPruned cs dirPath
    | file n co =>
      rw [show emptyPruned (FS.file n co) = FS.file n co from rfl]
      rw [walkChildren_cons_file, walkChildren_cons_file]
      rw [walkChildren_emptyPruned cs dirPath]
    | dir n e cs2 =>
      have hd : ∃ cs3, emptyPruned (FS.dir n e cs2) = FS.dir n e cs3 := by
        by_cases hp : prunedName n <;> simp [emptyPruned, hp]
      rcases hd with ⟨cs3, hcs3⟩
      rw [hcs3, walkChildren_cons_dir, walkChildren_cons_dir]
      rw [← hcs3, walkNode_emptyPruned (.dir n e cs2) (dirPath ++ "/" ++ n)]
      rw [walkChildren_emptyPruned cs dirPath]

end

/-- `Walk` on a present root is the worker's walk. -/
theorem Walk_some (nd : FS) (p : String) :
    Walk (some nd) p =
      ((walkNode nd p).1,
        match (walkNode nd p).2 with | WalkRet.fail e => some e | _ => none) := rfl

/-- A `package.json` declaring `{"express": "^4.18.0"}` under
"dependencies", already decoded. -/
def expressContent : Content :=
  { text := "x", jsonView := some { dependencies := [("express", "^4.18.0")] } }

/-- The record the express manifest yields. -/
def expressComponent : Component :=
  { name := "express", version := "^4.18.0", supplier := "npm",
    purl := "pkg:npm/express@^4.18.0" }

/-- A project whose only manifest sits inside `node_modules`. -/
def treeManifestInside : FS :=
  .dir "proj" false [.dir "node_modules" false [.file "package.json" (some expressContent)]]

/-- The same manifest placed one level outside `node_modules`. -/
def treeManifestOutside : FS :=
  .dir "proj" false
    [.file "package.json" (some expressContent), .dir "node_modules" false []]

/-- C2: (1) deleting everything under every directory whose base name
is pruned — at any nesting depth — never changes the aggregate, so no
record is derived from files under such directories; (2) a manifest
inside `node_modules` yields nothing; (3) the identical manifest
placed outside contributes its record. -/
theorem C2_pruning :
    (∀ (t : FS) (path : String),
      AnalyzeDir (some (emptyPruned t)) path = AnalyzeDir (some t) path) ∧
    AnalyzeDir (some treeManifestInside) "proj" = Except.ok [] ∧
    AnalyzeDir (some treeManifestOutside) "proj" = Except.ok [expressComponent] := by
  refine ⟨fun t path => ?_, by decide, by decide⟩
  rw [analyzeDir_ok, analyzeDir_ok, Walk_some, Walk_some, walkNode_emptyPruned]

/-! ## Claim C3: npm extraction -/

/-- Whether a record carries the development-dependency annotation. -/
def isDevComponent (c : Component) : Bool :=
  c.metadata.description == "development dependency"

/-- C3: for a successfully decoded `package.json` with N entries under
"dependencies" and M under "devDependencies", the npm parser emits
exactly N+M records; the first N are unannotated and the final M are
exactly the development-dependency-annotated ones; every record has
supplier "npm" and `purl = "pkg:npm/" ++ name ++ "@" ++ version` built
from its own fields; and a file whose JSON fails to unmarshal is a
hard parse failure, whose contribution to the walk is empty. -/
theorem C3_npm_extraction (pkg : NpmPkg) :
    (npmComponents pkg).length = pkg.dependencies.length + pkg.devDeps.length ∧
    ((npmComponents pkg).take pkg.dependencies.length).all (fun c => !(isDevComponent c)) ∧
    ((npmComponents pkg).drop pkg.dependencies.length).all isDevComponent ∧
    (npmComponents pkg).countP (fun c => isDevComponent c) = pkg.devDeps.length ∧
    (∀ c ∈ npmComponents pkg,
      c.supplier = "npm" ∧ c.purl = "pkg:npm/" ++ c.name ++ "@" ++ c.version) ∧
    (∀ t, NPMAnalyze (some { text := t, jsonView := none }) = Except.error "unmarshal error") ∧
    (∀ t path, analyzerContribution npmAnalyzerI path (some { text := t, jsonView := none }) = []) := by
  refine ⟨?_, ?_, ?_, ?_, ?_, fun t => rfl, fun t path => ?_⟩
  · simp [npmComponents]
  · have h : (npmComponents pkg).take pkg.dependencies.length =
        pkg.dependencies.map (fun e =>
          { name := e.1, version := e.2, supplier := "npm",
            purl := "pkg:npm/" ++ e.1 ++ "@" ++ e.2 }) := by
      unfold npmComponents
      rw [← List.length_map pkg.dependencies (fun e =>
        ({ name := e.1, version := e.2, supplier := "npm",
           purl := "pkg:npm/" ++ e.1 ++ "@" ++ e.2 } : Component))]
      exact List.take_left _ _
    rw [h, List.all_eq_true]
    intro c hc
    rcases List.mem_map.mp hc with ⟨e, -, rfl⟩
    simp [isDevComponent]
  · have h : (npmComponents pkg).drop pkg.dependencies.length =
        pkg.devDeps.map (fun e =>
          { name := e.1, version := e.2, supplier := "npm",
            purl := "pkg:npm/" ++ e.1 ++ "@" ++ e.2,
            metadata := { description := "development dependency" } }) := by
      unfold npmComponents
      rw [← List.length_map pkg.dependencies (fun e =>
        ({ name := e.1, version := e.2, supplier := "npm",
           purl := "pkg:npm/" ++ e.1 ++ "@" ++ e.2 } : Component))]
      exact List.drop_left _ _
    rw [h, List.all_eq_true]
    intro c hc
    rcases List.mem_map.mp hc with ⟨e, -, rfl⟩
    simp [isDevComponent]
  · unfold npmComponents
    rw [List.countP_append, List.countP_map, List.countP_map]
    rw [List.countP_eq_zero.mpr fun e _ => by simp [isDevComponent, Function.comp],
        List.countP_eq_length.mpr fun e _ => by simp [isDevComponent, Function.comp]]
    simp
  · intro c hc
    unfold npmComponents at hc
    rcases List.mem_append.mp hc with h | h <;>
      rcases List.mem_map.mp h with ⟨e, _, rfl⟩ <;> exact ⟨rfl, rfl⟩
  · simp [analyzerContribution, npmAnalyzerI, NPMAnalyze]

/-- C3, witness: the npm claim evaluated at a concrete decoded
package with one dependency and one devDependency. -/
theorem C3_npm_extraction_witness :
    (npmComponents { dependencies := [("express", "^4.18.0")], devDeps := [("jest", "^29.0.0")] }).length = 2 ∧
    expressComponent.supplier = "npm" ∧
    expressComponent.purl = "pkg:npm/" ++ expressComponent.name ++ "@" ++ expressComponent.version := by
  have h := C3_npm_extraction { dependencies := [("express", "^4.18.0")], devDeps := [("jest", "^29.0.0")] }
  refine ⟨h.1.trans (by decide), ?_, ?_⟩
  · exact (h.2.2.2.2.1 expressComponent (by decide)).1
  · exact (h.2.2.2.2.1 expressComponent (by decide)).2

/-! ## Bridging Go `strings.Split` with first-occurrence vocabulary -/

/-- A non-empty string has non-empty character data. -/
theorem strData_ne_nil (s : String) (h : s ≠ "") : s.data ≠ [] := by
  intro hd
  apply h
  cases s
  simp at hd
  simp [hd]

/-- A found pattern fits inside the scanned list. -/
theorem findSub_bound : ∀ (cs pat : List Char) (i : Nat),
    findSub cs pat = some i → i + pat.length ≤ cs.length := by
  intro cs
  induction cs with
  | nil =>
    intro pat i h
    unfold findSub at h
    by_cases hp : pat = []
    · simp [hp] at h ⊢
      omega
    · simp [hp] at h
  | cons c tl ih =>
    intro pat i h
    unfold findSub at h
    by_cases hp : pat.isPrefixOf (c :: tl)
    · simp [hp] at h
      subst h
      have := (List.isPrefixOf_iff_prefix.mp hp).length_le
      simpa using this
    · simp [hp] at h
      rcases h with ⟨j, hj, rfl⟩
      have := ih pat j hj
      simp
      omega

/-- `splitGo` ignores the exact fuel once it exceeds the input length. -/
theorem splitGo_fuel (sep : List Char) (hsep : sep ≠ []) :
    ∀ (n : Nat) (cs : List Char) (fuel1 fuel2 : Nat) (acc : List Char),
      cs.length ≤ n → cs.length < fuel1 → cs.length < fuel2 →
      splitGo sep fuel1 cs acc = splitGo sep fuel2 cs acc := by
  intro n
  induction n with
  | zero =>
    intro cs fuel1 fuel2 acc hn h1 h2
    have : cs = [] := List.length_eq_zero.mp (Nat.le_antisymm hn (Nat.zero_le _))
    subst this
    cases fuel1 <;> cases fuel2 <;> rfl
  | succ n ih =>
    intro cs fuel1 fuel2 acc hn h1 h2
    cases cs with
    | nil => cases fuel1 <;> cases fuel2 <;> rfl
    | cons c tl =>
      have hlen : (c :: tl).length ≥ 1 := by simp
      cases fuel1 with
      | zero => omega
      | succ f1 =>
        cases fuel2 with
        | zero => omega
        | succ f2 =>
          rw [splitGo, splitGo]
          by_cases hp : sep.isPrefixOf (c :: tl)
          · simp only [hp, if_true]
            have hsl : sep.length ≥ 1 := by
              cases sep
              · exact absurd rfl hsep
              · simp
            congr 1
            apply ih <;>
              simp only [List.length_drop, List.length_cons] at h1 h2 hn ⊢ <;> omega
          · simp only [hp, if_false]
            apply ih <;>
              simp only [List.length_cons] at h1 h2 hn ⊢ <;> omega

/-- When the separator does not occur, `splitGo` yields one chunk. -/
theorem splitGo_none (sep : List Char) :
    ∀ (cs acc : List Char) (fuel : Nat),
      findSub cs sep = none → cs.length < fuel →
      splitGo sep fuel cs acc = [acc.reverse ++ cs] := by
  intro cs
  induction cs with
  | nil =>
    intro acc fuel _ hf
    cases fuel <;> simp [splitGo]
  | cons c tl ih =>
    intro acc fuel h hf
    cases fuel with
    | zero => omega
    | succ f =>
      unfold findSub at h
      by_cases hp : sep.isPrefixOf (c :: tl)
      · simp [hp] at h
      · simp only [hp, if_false] at h
        rw [splitGo]
        simp only [hp, if_false]
        rw [ih (c :: acc) f (Option.map_eq_none.mp h) (by simp at hf ⊢; omega)]
        simp

/-- When the separator first occurs at `i`, the first chunk is the
prefix of length `i` and splitting resumes after the separator. -/
theorem splitGo_some (sep : List Char) (hsep : sep ≠ []) :
    ∀ (cs : List Char) (i : Nat) (acc : List Char) (fuel : Nat),
      findSub cs sep = some i → cs.length < fuel →
      splitGo sep fuel cs acc =
        (acc.reverse ++ cs.take i) ::
          splitGo sep ((cs.drop (i + sep.length)).length + 1) (cs.drop (i + sep.length)) [] := by
  intro cs
  induction cs with
  | nil =>
    intro i acc fuel h _
    unfold findSub at h
    simp [hsep] at h
  | cons c tl ih =>
    intro i acc fuel h hf
    cases fuel with
    | zero => omega
    | succ f =>
      unfold findSub at h
      by_cases hp : sep.isPrefixOf (c :: tl)
      · simp only [hp, if_true, Option.some_inj] at h
        subst h
        rw [splitGo]
        simp only [hp, if_true, List.take_zero, List.append_nil, Nat.zero_add]
        congr 1
        apply splitGo_fuel sep hsep ((c :: tl).length)
        · simp
        · have hsl : sep.length ≥ 1 := by
            cases sep
            · exact absurd rfl hsep
            · simp
          simp only [List.length_drop, List.length_cons] at hf ⊢
          omega
        · omega
      · simp only [hp, if_false] at h
        rcases hj : findSub tl sep with _ | j
        · rw [hj] at h
          simp at h
        rw [hj] at h
        simp at h
        subst h
        rw [splitGo]
        simp only [hp, if_false]
        rw [ih j (c :: acc) f hj (by simp at hf ⊢; omega)]
        have h1 : (c :: tl).take (j + 1) = c :: tl.take j := rfl
        have h2 : (c :: tl).drop (j + 1 + sep.length) = tl.drop (j + sep.length) := by
          have : j + 1 + sep.length = (j + sep.length) + 1 := by omega
          rw [this]
          rfl
        rw [h1, h2]
        simp

/-- Go `strings.Split` when the separator does not occur: the string
itself, whole. -/
theorem goSplit_of_no_occ (s sep : String) (hsep : sep ≠ "")
    (h : goIndex s sep = none) : goSplit s sep = [s] := by
  unfold goSplit
  rw [if_neg hsep]
  rw [splitGo_none sep.data s.data [] (s.data.length + 1) h (by omega)]
  simp

/-- Go `strings.Split` when the separator first occurs at `i`: the
prefix before it, then the split of the remainder. -/
theorem goSplit_of_occ (s sep : String) (hsep : sep ≠ "")
    (i : Nat) (h : goIndex s sep = some i) :
    goSplit s sep = strTake s i :: goSplit (strDrop s (i + sep.length)) sep := by
  unfold goSplit
  rw [if_neg hsep]
  rw [splitGo_some sep.data (strData_ne_nil sep hsep) s.data i [] (s.data.length + 1) h (by omega)]
  simp [strTake, strDrop]
  rw [if_neg hsep]

/-- A Go split is never empty. -/
theorem goSplit_ne_nil (s sep : String) (hsep : sep ≠ "") : goSplit s sep ≠ [] := by
  rcases h : goIndex s sep with _ | i
  · rw [goSplit_of_no_occ s sep hsep h]
    simp
  · rw [goSplit_of_occ s sep hsep i h]
    simp

/-! ## Claim C4: the requirements.txt line grammar -/

/-- Splitting at the first occurrence of `op` (the spec's vocabulary):
the text before it and all the text after it. -/
def splitFirst (s op : String) : Option (String × String) :=
  match goIndex s op with
  | none => none
  | some i => some (strTake s i, strDrop s (i + op.length))

/-- The claim as stated: the line is split at the first occurrence of
`==`, else `>=`, else `<=`; the name is the text before the operator
and the version is ALL the text after it, both trimmed. -/
def pypiSpecLineComponents (rawLine : String) : List Component :=
  let line := goTrimSpace rawLine
  if line == "" || strStartsWith line "#" then []
  else
    match splitFirst line "==" <|> splitFirst line ">=" <|> splitFirst line "<=" with
    | some nv =>
      let name := goTrimSpace nv.1
      let version := goTrimSpace nv.2
      [{ name := name, version := version, supplier := "pypi",
         purl := "pkg:pypi/" ++ name ++ "@" ++ version }]
    | none => []

/-- The amended version extraction: the text strictly between the
first and second occurrences of the operator, or all the text after
the first occurrence when it occurs only once. -/
def betweenOrRest (s op : String) : Option (String × String) :=
  match splitFirst s op with
  | none => none
  | some pr =>
    match splitFirst pr.2 op with
    | none => some pr
    | some pr2 => some (pr.1, pr2.1)

/-- The amended operator chain: `==` first, falling through to `>=`
then `<=` only when the previous operator does not occur at all. -/
def pypiAmendedSplit (line : String) : Option (String × String) :=
  betweenOrRest line "==" <|> betweenOrRest line ">=" <|> betweenOrRest line "<="

/-- The claim as amended: name = text before the first operator
occurrence; version = text between the first and second occurrences
(or the whole rest when the operator occurs once); both trimmed. -/
def pypiAmendedLine (rawLine : String) : List Component :=
  let line := goTrimSpace rawLine
  if line == "" || strStartsWith line "#" then []
  else
    match pypiAmendedSplit line with
    | some nv =>
      let name := goTrimSpace nv.1
      let version := goTrimSpace nv.2
      [{ name := name, version := version, supplier := "pypi",
         purl := "pkg:pypi/" ++ name ++ "@" ++ version }]
    | none => []

/-- The first two elements of a list, when it has two. -/
def firstTwo : List String → Option (String × String)
  | p0 :: p1 :: _ => some (p0, p1)
  | _ => none

/-- The first two parts of a Go split are the text before the first
occurrence and the text between the first and second occurrences (or
the whole rest); fewer than two parts means no occurrence. -/
theorem goSplit_parts01 (s op : String) (hop : op ≠ "") :
    firstTwo (goSplit s op) = betweenOrRest s op := by
  rcases h1 : goIndex s op with _ | i
  · rw [goSplit_of_no_occ s op hop h1]
    simp [firstTwo, betweenOrRest, splitFirst, h1]
  · rw [goSplit_of_occ s op hop i h1]
    rcases h2 : goIndex (strDrop s (i + op.length)) op with _ | j
    · rw [goSplit_of_no_occ _ op hop h2]
      simp [firstTwo, betweenOrRest, splitFirst, h1, h2]
    · rw [goSplit_of_occ _ op hop j h2]
      simp [firstTwo, betweenOrRest, splitFirst, h1, h2]

/-- A Go split has at least two parts exactly when the separator
occurs. -/
theorem goSplit_two_iff (s op : String) (hop : op ≠ "") :
    2 ≤ (goSplit s op).length ↔ goIndex s op ≠ none := by
  constructor
  · intro h hnone
    rw [goSplit_of_no_occ s op hop hnone] at h
    simp at h
  · intro h
    rcases hi : goIndex s op with _ | i
    · exact absurd hi h
    · rw [goSplit_of_occ s op hop i hi]
      have := goSplit_ne_nil (strDrop s (i + op.length)) op hop
      cases hrest : goSplit (strDrop s (i + op.length)) op with
      | nil => exact absurd hrest this
      | cons a l => simp

/-- When an operator occurs in the line, the amended extraction
produces a pair. -/
theorem betweenOrRest_isSome (line op : String) (i : Nat)
    (ho : goIndex line op = some i) : ∃ pr, betweenOrRest line op = some pr := by
  unfold betweenOrRest splitFirst
  rw [ho]
  rcases hx : goIndex (strDrop line (i + op.length)) op with _ | j <;> simp [hx]

/-- The Go selection chain agrees with the amended first-occurrence
description. -/
theorem pypiPickParts_eq (line : String) :
    firstTwo (pypiPickParts line) = pypiAmendedSplit line := by
  simp only [pypiPickParts, pypiAmendedSplit]
  by_cases hl1 : (goSplit line "==").length < 2
  · have ho1 : goIndex line "==" = none := by
      by_contra hc
      have := (goSplit_two_iff line "==" (by decide)).mpr hc
      omega
    have b1 : betweenOrRest line "==" = none := by simp [betweenOrRest, splitFirst, ho1]
    rw [if_pos hl1, b1, Option.none_orElse]
    by_cases hl2 : (goSplit line ">=").length < 2
    · have ho2 : goIndex line ">=" = none := by
        by_contra hc
        have := (goSplit_two_iff line ">=" (by decide)).mpr hc
        omega
      have b2 : betweenOrRest line ">=" = none := by simp [betweenOrRest, splitFirst, ho2]
      rw [if_pos hl2, b2, Option.none_orElse]
      exact goSplit_parts01 line "<=" (by decide)
    · rw [if_neg hl2, goSplit_parts01 line ">=" (by decide)]
      have ho2 : goIndex line ">=" ≠ none := by
        intro hc
        rw [goSplit_of_no_occ line ">=" (by decide) hc] at hl2
        simp at hl2
      rcases ho : goIndex line ">=" with _ | i
      · exact absurd ho ho2
      obtain ⟨pr, hpr⟩ := betweenOrRest_isSome line ">=" i ho
      rw [hpr]
      rfl
  · rw [if_neg hl1, if_neg hl1, goSplit_parts01 line "==" (by decide)]
    have ho1 : goIndex line "==" ≠ none := by
      intro hc
      rw [goSplit_of_no_occ line "==" (by decide) hc] at hl1
      simp at hl1
    rcases ho : goIndex line "==" with _ | i
    · exact absurd ho ho1
    obtain ⟨pr, hpr⟩ := betweenOrRest_isSome line "==" i ho
    rw [hpr]
    rfl

/-- C4, counterexample.  On `a==b==c` the code (Go `strings.Split`,
which splits at every occurrence and takes parts 0 and 1) produces the
version `"b"`, whereas the claim's split at the first occurrence with
version "the text after" demands `"b==c"`. -/
theorem C4_counterexample :
    pypiLineComponents "a==b==c" =
      [{ name := "a", version := "b", supplier := "pypi", purl := "pkg:pypi/a@b" }] ∧
    pypiSpecLineComponents "a==b==c" =
      [{ name := "a", version := "b==c", supplier := "pypi", purl := "pkg:pypi/a@b==c" }] ∧
    pypiLineComponents "a==b==c" ≠ pypiSpecLineComponents "a==b==c" :=
  ⟨by decide, by decide, by decide⟩

/-- C4, amended: per requirements.txt line, blank and `#` lines yield
nothing; otherwise the line is split on `==`, falling back to `>=`
then `<=` only when the previous operator does not occur; when the
chosen operator occurs, exactly one record is emitted whose name is
the trimmed text before its first occurrence and whose version is the
trimmed text between its first and second occurrences (the whole rest
when it occurs only once); with no operator at all, zero records and
no error. -/
theorem C4_amended_line (rawLine : String) :
    pypiLineComponents rawLine = pypiAmendedLine rawLine := by
  simp only [pypiLineComponents, pypiAmendedLine]
  cases hg : (goTrimSpace rawLine == "" || strStartsWith (goTrimSpace rawLine) "#") with
  | true => simp [hg]
  | false =>
    simp only [hg, Bool.false_eq_true, if_false]
    have h := pypiPickParts_eq (goTrimSpace rawLine)
    rcases hp : pypiPickParts (goTrimSpace rawLine) with _ | ⟨p0, _ | ⟨p1, rest⟩⟩ <;>
      rw [hp] at h <;> simp only [firstTwo] at h <;> rw [← h]

/-! ## Character-level helpers for schematic manifest lines -/

/-- A plain identifier character for schematic manifest entries:
letters, digits, `-`, `_`. -/
def plainChar (c : Char) : Bool :=
  c.isAlphanum || c == '-' || c == '_'

/-- A plain package name: non-empty, all `plainChar`. -/
def plainName (s : String) : Bool :=
  s != "" && s.data.all plainChar

/-- A plain version string: non-empty, `plainChar` or `.`. -/
def plainVersion (s : String) : Bool :=
  s != "" && s.data.all (fun c => plainChar c || c == '.')

/-- Plain characters are not whitespace and none of the structural
characters the parsers test for. -/
theorem plainChar_spec (c : Char) (h : plainChar c = true) :
    c.isWhitespace = false ∧ c ≠ '[' ∧ c ≠ '#' ∧ c ≠ '=' ∧ c ≠ '\"' ∧ c ≠ '{' ∧ c ≠ '/' ∧ c ≠ '<' := by
  refine ⟨?_, ?_, ?_, ?_, ?_, ?_, ?_, ?_⟩
  · by_cases h1 : c = ' '
    · subst h1; exact absurd h (by decide)
    by_cases h2 : c = '\t'
    · subst h2; exact absurd h (by decide)
    by_cases h3 : c = '\r'
    · subst h3; exact absurd h (by decide)
    by_cases h4 : c = '\n'
    · subst h4; exact absurd h (by decide)
    simp [Char.isWhitespace, h1, h2, h3, h4]
  all_goals intro hc
  all_goals subst hc
  all_goals exact absurd h (by decide)

/-- `.` is likewise inert. -/
theorem dotChar_spec :
    ('.' : Char).isWhitespace = false ∧ ('.' : Char) ≠ '[' ∧ ('.' : Char) ≠ '#' ∧
      ('.' : Char) ≠ '=' ∧ ('.' : Char) ≠ '\"' ∧ ('.' : Char) ≠ '{' ∧ ('.' : Char) ≠ '/' ∧
      ('.' : Char) ≠ '<' := by
  decide

/-- Dropping while a predicate holds skips a fully-satisfying front. -/
theorem dropWhile_all_append (p : Char → Bool) (pre cs : List Char)
    (hpre : ∀ c ∈ pre, p c = true) :
    (pre ++ cs).dropWhile p = cs.dropWhile p := by
  induction pre with
  | nil => rfl
  | cons a l ih =>
    simp only [List.cons_append, List.dropWhile_cons, hpre a (by simp), if_true]
    exact ih fun c hc => hpre c (by simp [hc])

/-- Dropping-while stops immediately at a non-satisfying head. -/
theorem dropWhile_head_false (p : Char → Bool) (c : Char) (t : List Char)
    (h : p c = false) : (c :: t).dropWhile p = c :: t := by
  simp [List.dropWhile_cons, h]

/-- Trimming whitespace removes exactly an all-whitespace front when
the core starts and ends with non-whitespace. -/
theorem trimSpaceL_pre (pre cs : List Char)
    (hpre : ∀ c ∈ pre, c.isWhitespace = true)
    (hh : ∀ c, cs.head? = some c → c.isWhitespace = false)
    (hl : ∀ c, cs.getLast? = some c → c.isWhitespace = false) :
    trimSpaceL (pre ++ cs) = cs := by
  unfold trimSpaceL
  rw [dropWhile_all_append _ pre cs hpre]
  cases cs with
  | nil => simp [List.dropWhile_nil]
  | cons c t =>
    rw [dropWhile_head_false _ c t (hh c rfl)]
    cases hr : (c :: t).reverse with
    | nil => simp at hr
    | cons d r =>
      have hd : (c :: t).getLast? = some d := by
        rw [List.getLast?_eq_head?_reverse, hr]
        rfl
      rw [dropWhile_head_false _ d r (hl d hd), ← hr, List.reverse_reverse]

/-- Trim does nothing when both ends are already non-whitespace. -/
theorem trimSpaceL_id (cs : List Char)
    (hh : ∀ c, cs.head? = some c → c.isWhitespace = false)
    (hl : ∀ c, cs.getLast? = some c → c.isWhitespace = false) :
    trimSpaceL cs = cs :=
  trimSpaceL_pre [] cs (by simp) hh hl

/-- A prefix test fails whenever the first characters differ. -/
theorem isPrefixOf_cons_false (cp cl : Char) (p l : List Char) (h : cp ≠ cl) :
    (cp :: p).isPrefixOf (cl :: l) = false := by
  simp [List.isPrefixOf, h]

/-- A single character that does not occur is not found. -/
theorem findSub_single_none (xs : List Char) (ch : Char) (hx : ch ∉ xs) :
    findSub xs [ch] = none := by
  induction xs with
  | nil => rfl
  | cons a l ih =>
    unfold findSub
    have ha : a ≠ ch := fun hc => hx (by simp [hc])
    rw [isPrefixOf_cons_false ch a [] l (Ne.symm ha)]
    simp only [Bool.false_eq_true, if_false]
    rw [ih fun hc => hx (by simp [hc])]
    rfl

/-- The first occurrence of `ch` after a `ch`-free front sits exactly
at the end of that front. -/
theorem findSub_single_append (xs ys : List Char) (ch : Char) (hx : ch ∉ xs) :
    findSub (xs ++ ch :: ys) [ch] = some xs.length := by
  induction xs with
  | nil =>
    simp only [List.nil_append]
    unfold findSub
    simp [List.isPrefixOf]
  | cons a l ih =>
    have ha : a ≠ ch := fun hc => hx (by simp [hc])
    rw [List.cons_append]
    unfold findSub
    rw [isPrefixOf_cons_false ch a [] (l ++ ch :: ys) (Ne.symm ha)]
    simp only [Bool.false_eq_true, if_false]
    rw [ih fun hc => hx (by simp [hc])]
    simp

/-! ## Claim C5: the Cargo.toml section grammar -/

/-- The claim's state rule, as stated: true only on a line EQUAL to
`[dependencies]`, false on any other line beginning with `[`; entry
parsing as in the code. -/
def cargoSpecLineStep (inDependencies : Bool) (rawLine : String) : Bool × List Component :=
  let line := goTrimSpace rawLine
  if line == "[dependencies]" then (true, [])
  else if strStartsWith line "[" then (false, [])
  else if inDependencies && line != "" && !(strStartsWith line "#") then
    (inDependencies, cargoEntryComponents line)
  else (inDependencies, [])

/-- The claim's parser, as stated. -/
def cargoSpecParse (content : String) : List Component :=
  ((goSplit content "\n").foldl
    (fun acc l =>
      let r := cargoSpecLineStep acc.1 l
      (r.1, acc.2 ++ r.2))
    (false, [])).2

/-- The cargo record for one entry. -/
def cargoComponent (n v : String) : Component :=
  { name := n, version := v, supplier := "cargo", purl := "pkg:cargo/" ++ n ++ "@" ++ v }

/-- C5, counterexample.  The code sets the state with a PREFIX test
(`strings.HasPrefix(line, "[dependencies]")`), not equality: on a
`[dependencies]` header followed by trailing text the code still
enters the section and extracts `serde`, while the claim's
equality-toggle (the header is not equal to `[dependencies]` and
begins with `[`) would leave the section and extract nothing. -/
theorem C5_counterexample :
    cargoParse "[dependencies] # deps\nserde = \"1.0\"" = [cargoComponent "serde" "1.0"] ∧
    cargoSpecParse "[dependencies] # deps\nserde = \"1.0\"" = [] ∧
    cargoParse "[dependencies] # deps\nserde = \"1.0\"" ≠
      cargoSpecParse "[dependencies] # deps\nserde = \"1.0\"" :=
  ⟨by decide, by decide, by decide⟩

/-- Trimming removes exactly the all-whitespace margins around a core
that starts and ends with non-whitespace. -/
theorem trimSpaceL_gen (pre cs post : List Char)
    (hpre : ∀ c ∈ pre, c.isWhitespace = true)
    (hpost : ∀ c ∈ post, c.isWhitespace = true)
    (hh : ∀ c, cs.head? = some c → c.isWhitespace = false)
    (hl : ∀ c, cs.getLast? = some c → c.isWhitespace = false) :
    trimSpaceL (pre ++ cs ++ post) = cs := by
  unfold trimSpaceL
  rw [List.append_assoc, dropWhile_all_append _ pre (cs ++ post) hpre]
  cases cs with
  | nil =>
    simp only [List.nil_append]
    rw [show post = post ++ [] from (List.append_nil post).symm,
      dropWhile_all_append _ post [] (by simpa using hpost)]
    simp
  | cons c t =>
    rw [List.cons_append, dropWhile_head_false _ c (t ++ post) (hh c rfl)]
    rw [show (c :: (t ++ post)).reverse = post.reverse ++ (c :: t).reverse by simp]
    rw [dropWhile_all_append _ post.reverse ((c :: t).reverse)
      (fun ch hch => hpost ch (List.mem_reverse.mp hch))]
    cases hr : (c :: t).reverse with
    | nil => simp at hr
    | cons d r =>
      have hd : (c :: t).getLast? = some d := by
        rw [List.getLast?_eq_head?_reverse, hr]
        rfl
      rw [dropWhile_head_false _ d r (hl d hd), ← hr, List.reverse_reverse]

/-- The facts used about a plain name: non-empty data, and every
character inert. -/
theorem plainName_facts (n : String) (h : plainName n = true) :
    n.data ≠ [] ∧
    ∀ c ∈ n.data, c.isWhitespace = false ∧ c ≠ '[' ∧ c ≠ '#' ∧ c ≠ '=' ∧
      c ≠ '\"' ∧ c ≠ '{' ∧ c ≠ '/' ∧ c ≠ '<' := by
  unfold plainName at h
  simp only [Bool.and_eq_true] at h
  rcases h with ⟨h1, h2⟩
  refine ⟨strData_ne_nil n (by simpa using h1), fun c hc => ?_⟩
  exact plainChar_spec c (List.all_eq_true.mp h2 c hc)

/-- The facts used about a plain version: non-empty data, and every
character inert. -/
theorem plainVersion_facts (v : String) (h : plainVersion v = true) :
    v.data ≠ [] ∧
    ∀ c ∈ v.data, c.isWhitespace = false ∧ c ≠ '[' ∧ c ≠ '#' ∧ c ≠ '=' ∧
      c ≠ '\"' ∧ c ≠ '{' ∧ c ≠ '/' ∧ c ≠ '<' := by
  unfold plainVersion at h
  simp only [Bool.and_eq_true] at h
  rcases h with ⟨h1, h2⟩
  refine ⟨strData_ne_nil v (by simpa using h1), fun c hc => ?_⟩
  have hor := List.all_eq_true.mp h2 c hc
  simp only [Bool.or_eq_true] at hor
  rcases hor with hp | hd
  · exact plainChar_spec c hp
  · rw [show c = '.' from by simpa using hd]
    exact dotChar_spec

/-- A prefix test on explicit character data, failing head. -/
theorem strStartsWith_mk_cons_ne (pre : String) (b : Char) (lb : List Char)
    (a : Char) (la : List Char) (hp : pre.data = b :: lb) (h : b ≠ a) :
    strStartsWith (String.mk (a :: la)) pre = false := by
  unfold strStartsWith
  rw [hp]
  exact isPrefixOf_cons_false b a lb la h

/-- Trimming `"`-characters from `"v"` recovers `v` when `v` is
non-empty and quote-free. -/
theorem goTrim_quoted (v : String) (hne : v.data ≠ [])
    (hq : ∀ c ∈ v.data, c ≠ '\"') :
    goTrim (String.mk ('\"' :: (v.data ++ ['\"']))) '\"' = v := by
  obtain ⟨b, tv, hv⟩ := List.exists_cons_of_ne_nil hne
  unfold goTrim
  simp only [List.dropWhile_cons]
  rw [if_pos (by simp)]
  rw [hv, List.cons_append, dropWhile_head_false _ b (tv ++ ['\"'])
    (by simp [hq b (by simp [hv])])]
  rw [show (b :: (tv ++ ['\"'])).reverse = '\"' :: (b :: tv).reverse by simp]
  simp only [List.dropWhile_cons]
  rw [if_pos (by simp)]
  cases hr : (b :: tv).reverse with
  | nil => simp at hr
  | cons d r =>
    have hd : (b :: tv).getLast? = some d := by
      rw [List.getLast?_eq_head?_reverse, hr]
      rfl
    have hdm : d ∈ v.data := by
      rw [hv]
      exact List.mem_of_getLast?_eq_some hd
    rw [dropWhile_head_false _ d r (by simp [hq d hdm]), ← hr, List.reverse_reverse, ← hv]

/-- The bare-string entry form: inside the section, a line
`n = "v"` emits exactly one record whose version is the quoted
content `v`. -/
theorem cargoLineStep_bare (n v : String) (hn : plainName n = true)
    (hv : plainVersion v = true) :
    cargoLineStep true (n ++ " = \"" ++ v ++ "\"") = (true, [cargoComponent n v]) := by
  obtain ⟨hnne, hnc⟩ := plainName_facts n hn
  obtain ⟨hvne, hvc⟩ := plainVersion_facts v hv
  obtain ⟨a, t, hat⟩ := List.exists_cons_of_ne_nil hnne
  have ha : a ∈ n.data := by
    rw [hat]
    simp
  have hdata : (n ++ " = \"" ++ v ++ "\"").data
      = n.data ++ (' ' :: '=' :: ' ' :: '\"' :: (v.data ++ ['\"'])) := by
    have l1 : (" = \"" : String).data = [' ', '=', ' ', '\"'] := rfl
    have l2 : ("\"" : String).data = ['\"'] := rfl
    simp [String.data_append, l1, l2]
  have hlast : (n.data ++ (' ' :: '=' :: ' ' :: '\"' :: (v.data ++ ['\"']))).getLast?
      = some '\"' := by
    rw [show n.data ++ (' ' :: '=' :: ' ' :: '\"' :: (v.data ++ ['\"']))
        = (n.data ++ (' ' :: '=' :: ' ' :: '\"' :: v.data)) ++ ['\"'] by simp]
    exact List.getLast?_concat _
  have htrim : goTrimSpace (n ++ " = \"" ++ v ++ "\"")
      = String.mk (n.data ++ (' ' :: '=' :: ' ' :: '\"' :: (v.data ++ ['\"']))) := by
    unfold goTrimSpace
    rw [hdata]
    congr 1
    apply trimSpaceL_id
    · intro c hc
      rw [hat] at hc
      simp at hc
      subst hc
      exact (hnc a ha).1
    · intro c hc
      rw [hlast] at hc
      cases hc
      decide
  have g1 : strStartsWith (String.mk (n.data ++ (' ' :: '=' :: ' ' :: '\"' :: (v.data ++ ['\"']))))
      "[dependencies]" = false := by
    rw [hat, List.cons_append]
    exact strStartsWith_mk_cons_ne "[dependencies]" '[' ("dependencies]" : String).data
      a _ rfl (Ne.symm (hnc a ha).2.1)
  have g2 : strStartsWith (String.mk (n.data ++ (' ' :: '=' :: ' ' :: '\"' :: (v.data ++ ['\"']))))
      "[" = false := by
    rw [hat, List.cons_append]
    exact strStartsWith_mk_cons_ne "[" '[' [] a _ rfl (Ne.symm (hnc a ha).2.1)
  have g3 : strStartsWith (String.mk (n.data ++ (' ' :: '=' :: ' ' :: '\"' :: (v.data ++ ['\"']))))
      "#" = false := by
    rw [hat, List.cons_append]
    exact strStartsWith_mk_cons_ne "#" '#' [] a _ rfl (Ne.symm (hnc a ha).2.2.1)
  have g4 : (String.mk (n.data ++ (' ' :: '=' :: ' ' :: '\"' :: (v.data ++ ['\"']))) != "")
      = true := by
    rw [hat, List.cons_append]
    simp [bne_iff_ne]
    intro hcon
    have := congrArg String.data hcon
    simp at this
  have hidx : goIndex (String.mk (n.data ++ (' ' :: '=' :: ' ' :: '\"' :: (v.data ++ ['\"']))))
      "=" = some (n.data.length + 1) := by
    show findSub (n.data ++ (' ' :: '=' :: ' ' :: '\"' :: (v.data ++ ['\"']))) ['='] = _
    rw [show n.data ++ (' ' :: '=' :: ' ' :: '\"' :: (v.data ++ ['\"']))
        = (n.data ++ [' ']) ++ '=' :: (' ' :: '\"' :: (v.data ++ ['\"'])) by simp]
    rw [findSub_single_append (n.data ++ [' ']) _ '=' ?notin]
    · simp
    case notin =>
      intro hmem
      rcases List.mem_append.mp hmem with hm | hm
      · exact absurd rfl (hnc '=' hm).2.2.2.1
      · simp at hm
  have hsplit : goSplitN2 (String.mk (n.data ++ (' ' :: '=' :: ' ' :: '\"' :: (v.data ++ ['\"']))))
      "=" = [String.mk (n.data ++ [' ']), String.mk (' ' :: '\"' :: (v.data ++ ['\"']))] := by
    unfold goSplitN2
    rw [hidx]
    have hshape : (String.mk (n.data ++ (' ' :: '=' :: ' ' :: '\"' :: (v.data ++ ['\"'])))).data
        = (n.data ++ [' ']) ++ '=' :: (' ' :: '\"' :: (v.data ++ ['\"'])) := by simp
    rw [hshape]
    have hlen : n.data.length + 1 = (n.data ++ [' ']).length := by simp
    have hone : ("=" : String).length = 1 := rfl
    rw [hlen]
    simp only [List.take_left, List.drop_left, hone, List.drop_one]
    simp
  have hname : goTrimSpace (String.mk (n.data ++ [' '])) = n := by
    unfold goTrimSpace
    have hg := trimSpaceL_gen [] n.data [' '] (by simp) (by simp)
      (fun c hc => by
        rw [hat] at hc
        simp at hc
        subst hc
        exact (hnc a ha).1)
      (fun c hc => (hnc c (List.mem_of_getLast?_eq_some hc)).1)
    simp only [List.nil_append] at hg
    rw [show (String.mk (n.data ++ [' '])).data = n.data ++ [' '] from rfl, hg]
  have hver : goTrimSpace (String.mk (' ' :: '\"' :: (v.data ++ ['\"'])))
      = String.mk ('\"' :: (v.data ++ ['\"'])) := by
    unfold goTrimSpace
    have hg := trimSpaceL_gen [' '] ('\"' :: (v.data ++ ['\"'])) [] (by simp) (by simp)
      (fun c hc => by
        simp at hc
        subst hc
        decide)
      (fun c hc => by
        rw [show '\"' :: (v.data ++ ['\"']) = ('\"' :: v.data) ++ ['\"'] by simp,
          List.getLast?_concat] at hc
        cases hc
        decide)
    simp only [List.append_nil] at hg
    rw [show (String.mk (' ' :: '\"' :: (v.data ++ ['\"']))).data
        = [' '] ++ ('\"' :: (v.data ++ ['\"'])) from rfl, hg]
  have hnotbrace : strStartsWith (String.mk ('\"' :: (v.data ++ ['\"']))) "\x7b" = false :=
    strStartsWith_mk_cons_ne "\x7b" '{' [] '\"' _ rfl (by decide)
  have htrimq : goTrim (String.mk ('\"' :: (v.data ++ ['\"']))) '\"' = v :=
    goTrim_quoted v hvne (fun c hc => (hvc c hc).2.2.2.2.1)
  simp only [cargoLineStep, htrim, g1, g2, g3, g4, Bool.false_eq_true, if_false,
    Bool.true_and, Bool.not_false, Bool.and_true, Bool.and_self]
  simp only [cargoEntryComponents, hsplit, hname, hver, hnotbrace, Bool.false_eq_true,
    if_false, htrimq]
  rfl

/-- The inline-table entry form: inside the section, a line
`n = { version = "v" }` emits exactly one record whose version is the
quoted content `v` (the text between the first and second `"` of the
value). -/
theorem cargoLineStep_inline (n v : String) (hn : plainName n = true)
    (hv : plainVersion v = true) :
    cargoLineStep true (n ++ " = \x7b version = \"" ++ v ++ "\" \x7d")
      = (true, [cargoComponent n v]) := by
  obtain ⟨hnne, hnc⟩ := plainName_facts n hn
  obtain ⟨hvne, hvc⟩ := plainVersion_facts v hv
  obtain ⟨a, t, hat⟩ := List.exists_cons_of_ne_nil hnne
  have ha : a ∈ n.data := by
    rw [hat]
    simp
  have hdata : (n ++ " = \x7b version = \"" ++ v ++ "\" \x7d").data
      = n.data ++ (' ' :: '=' :: ' ' :: '{' :: ' ' :: 'v' :: 'e' :: 'r' :: 's' :: 'i' :: 'o'
          :: 'n' :: ' ' :: '=' :: ' ' :: '\"' :: (v.data ++ ['\"', ' ', '}'])) := by
    have l1 : (" = \x7b version = \"" : String).data
        = [' ', '=', ' ', '{', ' ', 'v', 'e', 'r', 's', 'i', 'o', 'n', ' ', '=', ' ', '\"'] := rfl
    have l2 : ("\" \x7d" : String).data = ['\"', ' ', '}'] := rfl
    simp [String.data_append, l1, l2]
  have hlast : (n.data ++ (' ' :: '=' :: ' ' :: '{' :: ' ' :: 'v' :: 'e' :: 'r' :: 's' :: 'i'
      :: 'o' :: 'n' :: ' ' :: '=' :: ' ' :: '\"' :: (v.data ++ ['\"', ' ', '}']))).getLast?
      = some '}' := by
    rw [show n.data ++ (' ' :: '=' :: ' ' :: '{' :: ' ' :: 'v' :: 'e' :: 'r' :: 's' :: 'i'
        :: 'o' :: 'n' :: ' ' :: '=' :: ' ' :: '\"' :: (v.data ++ ['\"', ' ', '}']))
        = (n.data ++ (' ' :: '=' :: ' ' :: '{' :: ' ' :: 'v' :: 'e' :: 'r' :: 's' :: 'i'
          :: 'o' :: 'n' :: ' ' :: '=' :: ' ' :: '\"' :: (v.data ++ ['\"', ' ']))) ++ ['}']
      by simp]
    exact List.getLast?_concat _
  have htrim : goTrimSpace (n ++ " = \x7b version = \"" ++ v ++ "\" \x7d")
      = String.mk (n.data ++ (' ' :: '=' :: ' ' :: '{' :: ' ' :: 'v' :: 'e' :: 'r' :: 's'
          :: 'i' :: 'o' :: 'n' :: ' ' :: '=' :: ' ' :: '\"' :: (v.data ++ ['\"', ' ', '}']))) := by
    unfold goTrimSpace
    rw [hdata]
    congr 1
    apply trimSpaceL_id
    · intro c hc
      rw [hat] at hc
      simp at hc
      subst hc
      exact (hnc a ha).1
    · intro c hc
      rw [hlast] at hc
      cases hc
      decide
  have g1 : strStartsWith (String.mk (n.data ++ (' ' :: '=' :: ' ' :: '{' :: ' ' :: 'v' :: 'e'
      :: 'r' :: 's' :: 'i' :: 'o' :: 'n' :: ' ' :: '=' :: ' ' :: '\"' :: (v.data ++ ['\"', ' ', '}']))))
      "[dependencies]" = false := by
    rw [hat, List.cons_append]
    exact strStartsWith_mk_cons_ne "[dependencies]" '[' ("dependencies]" : String).data
      a _ rfl (Ne.symm (hnc a ha).2.1)
  have g2 : strStartsWith (String.mk (n.data ++ (' ' :: '=' :: ' ' :: '{' :: ' ' :: 'v' :: 'e'
      :: 'r' :: 's' :: 'i' :: 'o' :: 'n' :: ' ' :: '=' :: ' ' :: '\"' :: (v.data ++ ['\"', ' ', '}']))))
      "[" = false := by
    rw [hat, List.cons_append]
    exact strStartsWith_mk_cons_ne "[" '[' [] a _ rfl (Ne.symm (hnc a ha).2.1)
  have g3 : strStartsWith (String.mk (n.data ++ (' ' :: '=' :: ' ' :: '{' :: ' ' :: 'v' :: 'e'
      :: 'r' :: 's' :: 'i' :: 'o' :: 'n' :: ' ' :: '=' :: ' ' :: '\"' :: (v.data ++ ['\"', ' ', '}']))))
      "#" = false := by
    rw [hat, List.cons_append]
    exact strStartsWith_mk_cons_ne "#" '#' [] a _ rfl (Ne.symm (hnc a ha).2.2.1)
  have g4 : (String.mk (n.data ++ (' ' :: '=' :: ' ' :: '{' :: ' ' :: 'v' :: 'e' :: 'r' :: 's'
      :: 'i' :: 'o' :: 'n' :: ' ' :: '=' :: ' ' :: '\"' :: (v.data ++ ['\"', ' ', '}']))) != "")
      = true := by
    rw [hat, List.cons_append]
    simp [bne_iff_ne]
    intro hcon
    have := congrArg String.data hcon
    simp at this
  have hidx : goIndex (String.mk (n.data ++ (' ' :: '=' :: ' ' :: '{' :: ' ' :: 'v' :: 'e'
      :: 'r' :: 's' :: 'i' :: 'o' :: 'n' :: ' ' :: '=' :: ' ' :: '\"' :: (v.data ++ ['\"', ' ', '}']))))
      "=" = some (n.data.length + 1) := by
    show findSub (n.data ++ (' ' :: '=' :: ' ' :: '{' :: ' ' :: 'v' :: 'e' :: 'r' :: 's' :: 'i'
      :: 'o' :: 'n' :: ' ' :: '=' :: ' ' :: '\"' :: (v.data ++ ['\"', ' ', '}']))) ['='] = _
    rw [show n.data ++ (' ' :: '=' :: ' ' :: '{' :: ' ' :: 'v' :: 'e' :: 'r' :: 's' :: 'i'
        :: 'o' :: 'n' :: ' ' :: '=' :: ' ' :: '\"' :: (v.data ++ ['\"', ' ', '}']))
        = (n.data ++ [' ']) ++ '=' :: (' ' :: '{' :: ' ' :: 'v' :: 'e' :: 'r' :: 's' :: 'i'
          :: 'o' :: 'n' :: ' ' :: '=' :: ' ' :: '\"' :: (v.data ++ ['\"', ' ', '}'])) by simp]
    rw [findSub_single_append (n.data ++ [' ']) _ '=' ?notin]
    · simp
    case notin =>
      intro hmem
      rcases List.mem_append.mp hmem with hm | hm
      · exact absurd rfl (hnc '=' hm).2.2.2.1
      · simp at hm
  have hsplit : goSplitN2 (String.mk (n.data ++ (' ' :: '=' :: ' ' :: '{' :: ' ' :: 'v' :: 'e'
      :: 'r' :: 's' :: 'i' :: 'o' :: 'n' :: ' ' :: '=' :: ' ' :: '\"' :: (v.data ++ ['\"', ' ', '}']))))
      "=" = [String.mk (n.data ++ [' ']),
             String.mk (' ' :: '{' :: ' ' :: 'v' :: 'e' :: 'r' :: 's' :: 'i' :: 'o' :: 'n'
               :: ' ' :: '=' :: ' ' :: '\"' :: (v.data ++ ['\"', ' ', '}']))] := by
    unfold goSplitN2
    rw [hidx]
    have hshape : (String.mk (n.data ++ (' ' :: '=' :: ' ' :: '{' :: ' ' :: 'v' :: 'e' :: 'r'
        :: 's' :: 'i' :: 'o' :: 'n' :: ' ' :: '=' :: ' ' :: '\"' :: (v.data ++ ['\"', ' ', '}'])))).data
        = (n.data ++ [' ']) ++ '=' :: (' ' :: '{' :: ' ' :: 'v' :: 'e' :: 'r' :: 's' :: 'i'
          :: 'o' :: 'n' :: ' ' :: '=' :: ' ' :: '\"' :: (v.data ++ ['\"', ' ', '}'])) := by simp
    rw [hshape]
    have hlen : n.data.length + 1 = (n.data ++ [' ']).length := by simp
    have hone : ("=" : String).length = 1 := rfl
    rw [hlen]
    simp only [List.take_left, List.drop_left, hone, List.drop_one]
    simp
  have hname : goTrimSpace (String.mk (n.data ++ [' '])) = n := by
    unfold goTrimSpace
    have hg := trimSpaceL_gen [] n.data [' '] (by simp) (by simp)
      (fun c hc => by
        rw [hat] at hc
        simp at hc
        subst hc
        exact (hnc a ha).1)
      (fun c hc => (hnc c (List.mem_of_getLast?_eq_some hc)).1)
    simp only [List.nil_append] at hg
    rw [show (String.mk (n.data ++ [' '])).data = n.data ++ [' '] from rfl, hg]
  have hver : goTrimSpace (String.mk (' ' :: '{' :: ' ' :: 'v' :: 'e' :: 'r' :: 's' :: 'i'
      :: 'o' :: 'n' :: ' ' :: '=' :: ' ' :: '\"' :: (v.data ++ ['\"', ' ', '}'])))
      = String.mk ('{' :: ' ' :: 'v' :: 'e' :: 'r' :: 's' :: 'i' :: 'o' :: 'n' :: ' ' :: '='
          :: ' ' :: '\"' :: (v.data ++ ['\"', ' ', '}'])) := by
    unfold goTrimSpace
    have hg := trimSpaceL_gen [' ']
      ('{' :: ' ' :: 'v' :: 'e' :: 'r' :: 's' :: 'i' :: 'o' :: 'n' :: ' ' :: '=' :: ' '
        :: '\"' :: (v.data ++ ['\"', ' ', '}'])) [] (by simp) (by simp)
      (fun c hc => by
        simp at hc
        subst hc
        decide)
      (fun c hc => by
        rw [show '{' :: ' ' :: 'v' :: 'e' :: 'r' :: 's' :: 'i' :: 'o' :: 'n' :: ' ' :: '='
            :: ' ' :: '\"' :: (v.data ++ ['\"', ' ', '}'])
            = ('{' :: ' ' :: 'v' :: 'e' :: 'r' :: 's' :: 'i' :: 'o' :: 'n' :: ' ' :: '='
              :: ' ' :: '\"' :: (v.data ++ ['\"', ' '])) ++ ['}'] by simp,
          List.getLast?_concat] at hc
        cases hc
        decide)
    simp only [List.append_nil] at hg
    rw [show (String.mk (' ' :: '{' :: ' ' :: 'v' :: 'e' :: 'r' :: 's' :: 'i' :: 'o' :: 'n'
        :: ' ' :: '=' :: ' ' :: '\"' :: (v.data ++ ['\"', ' ', '}']))).data
        = [' '] ++ ('{' :: ' ' :: 'v' :: 'e' :: 'r' :: 's' :: 'i' :: 'o' :: 'n' :: ' ' :: '='
          :: ' ' :: '\"' :: (v.data ++ ['\"', ' ', '}'])) from rfl, hg]
  have hbrace : strStartsWith (String.mk ('{' :: ' ' :: 'v' :: 'e' :: 'r' :: 's' :: 'i' :: 'o'
      :: 'n' :: ' ' :: '=' :: ' ' :: '\"' :: (v.data ++ ['\"', ' ', '}']))) "\x7b" = true := by
    unfold strStartsWith
    simp [List.isPrefixOf]
  have hq1 : goIndex (String.mk ('{' :: ' ' :: 'v' :: 'e' :: 'r' :: 's' :: 'i' :: 'o' :: 'n'
      :: ' ' :: '=' :: ' ' :: '\"' :: (v.data ++ ['\"', ' ', '}']))) "\"" = some 12 := by
    show findSub ('{' :: ' ' :: 'v' :: 'e' :: 'r' :: 's' :: 'i' :: 'o' :: 'n' :: ' ' :: '='
      :: ' ' :: '\"' :: (v.data ++ ['\"', ' ', '}'])) ['\"'] = _
    rw [show '{' :: ' ' :: 'v' :: 'e' :: 'r' :: 's' :: 'i' :: 'o' :: 'n' :: ' ' :: '=' :: ' '
        :: '\"' :: (v.data ++ ['\"', ' ', '}'])
        = ['{', ' ', 'v', 'e', 'r', 's', 'i', 'o', 'n', ' ', '=', ' ']
          ++ '\"' :: (v.data ++ ['\"', ' ', '}']) by simp]
    rw [findSub_single_append _ _ '\"' (by decide)]
    rfl
  have hdrop : strDrop (String.mk ('{' :: ' ' :: 'v' :: 'e' :: 'r' :: 's' :: 'i' :: 'o' :: 'n'
      :: ' ' :: '=' :: ' ' :: '\"' :: (v.data ++ ['\"', ' ', '}']))) (12 + 1)
      = String.mk (v.data ++ ['\"', ' ', '}']) := rfl
  have hq2 : goIndex (String.mk (v.data ++ ['\"', ' ', '}'])) "\"" = some v.data.length := by
    show findSub (v.data ++ ['\"', ' ', '}']) ['\"'] = _
    rw [show v.data ++ ['\"', ' ', '}'] = v.data ++ '\"' :: [' ', '}'] from rfl]
    exact findSub_single_append v.data [' ', '}'] '\"'
      (fun hm => absurd rfl (hvc '\"' hm).2.2.2.2.1)
  have hslice : strSlice (String.mk ('{' :: ' ' :: 'v' :: 'e' :: 'r' :: 's' :: 'i' :: 'o' :: 'n'
      :: ' ' :: '=' :: ' ' :: '\"' :: (v.data ++ ['\"', ' ', '}'])))
      (12 + 1) (12 + v.data.length + 1) = v := by
    unfold strSlice
    rw [show (String.mk ('{' :: ' ' :: 'v' :: 'e' :: 'r' :: 's' :: 'i' :: 'o' :: 'n' :: ' '
        :: '=' :: ' ' :: '\"' :: (v.data ++ ['\"', ' ', '}']))).data
        = (['{', ' ', 'v', 'e', 'r', 's', 'i', 'o', 'n', ' ', '=', ' ', '\"'] ++ v.data)
          ++ ['\"', ' ', '}'] from by simp]
    have hlen13 : 12 + v.data.length + 1
        = (['{', ' ', 'v', 'e', 'r', 's', 'i', 'o', 'n', ' ', '=', ' ', '\"'] ++ v.data).length := by
      simp
      omega
    rw [hlen13, List.take_left]
    rw [show (['{', ' ', 'v', 'e', 'r', 's', 'i', 'o', 'n', ' ', '=', ' ', '\"'] ++ v.data)
        = (['{', ' ', 'v', 'e', 'r', 's', 'i', 'o', 'n', ' ', '=', ' ', '\"'] : List Char)
          ++ v.data from rfl]
    rw [show (12 + 1 : Nat)
        = (['{', ' ', 'v', 'e', 'r', 's', 'i', 'o', 'n', ' ', '=', ' ', '\"'] : List Char).length
      from rfl]
    rw [List.drop_left]
  simp only [cargoLineStep, htrim, g1, g2, g3, g4, Bool.false_eq_true, if_false,
    Bool.true_and, Bool.not_false, Bool.and_true, Bool.and_self]
  simp only [cargoEntryComponents, hsplit, hname, hver, hbrace, if_true, hq1, hq2, hdrop]
  rw [hslice]
  rfl

/-- The state update of the Cargo line loop: a prefix match of
`[dependencies]` enters the section, any other leading `[` leaves it,
and every other line preserves the state. -/
theorem cargoLineStep_state (s : Bool) (rawLine : String) :
    (cargoLineStep s rawLine).1 =
      (if strStartsWith (goTrimSpace rawLine) "[dependencies]" = true then true
       else if strStartsWith (goTrimSpace rawLine) "[" = true then false else s) := by
  simp only [cargoLineStep]
  by_cases h1 : strStartsWith (goTrimSpace rawLine) "[dependencies]" = true
  · simp [h1]
  · simp only [h1, if_false]
    by_cases h2 : strStartsWith (goTrimSpace rawLine) "[" = true
    · simp [h1, h2]
    · by_cases h3 : (s && (goTrimSpace rawLine != "") && !(strStartsWith (goTrimSpace rawLine) "#")) = true
      · simp [h1, h2, h3]
      · simp [h1, h2, h3]

/-- C5, amended: the inside-`[dependencies]` state becomes true on
encountering a line that BEGINS WITH `[dependencies]` (after
trimming), becomes false on any other line beginning with `[`, and is
otherwise unchanged; while the state is true, both the bare-string
form `n = "v"` and the inline-table form `n = { version = "v" }`
emit exactly one record whose version equals the quoted content. -/
theorem C5_amended_cargo :
    (∀ (s : Bool) (rawLine : String),
      (cargoLineStep s rawLine).1 =
        (if strStartsWith (goTrimSpace rawLine) "[dependencies]" = true then true
         else if strStartsWith (goTrimSpace rawLine) "[" = true then false else s)) ∧
    (∀ n v : String, plainName n = true → plainVersion v = true →
      cargoLineStep true (n ++ " = \"" ++ v ++ "\"") = (true, [cargoComponent n v]) ∧
      cargoLineStep true (n ++ " = \x7b version = \"" ++ v ++ "\" \x7d")
        = (true, [cargoComponent n v])) :=
  ⟨cargoLineStep_state,
   fun n v hn hv => ⟨cargoLineStep_bare n v hn hv, cargoLineStep_inline n v hn hv⟩⟩

/-- C5, witness: the amended claim evaluated on the `serde` and
`tokio`-style fixture entries. -/
theorem C5_amended_cargo_witness :
    (cargoLineStep false "[dependencies]").1 = true ∧
    cargoLineStep true "serde = \"1.0.0\"" = (true, [cargoComponent "serde" "1.0.0"]) ∧
    cargoLineStep true "serde = \x7b version = \"1.0.0\" \x7d"
      = (true, [cargoComponent "serde" "1.0.0"]) := by
  refine ⟨(C5_amended_cargo.1 false "[dependencies]").trans (by decide), ?_, ?_⟩
  · have h := (C5_amended_cargo.2 "serde" "1.0.0" (by decide) (by decide)).1
    rw [show ("serde" : String) ++ " = \"" ++ "1.0.0" ++ "\"" = "serde = \"1.0.0\"" from by decide] at h
    exact h
  · have h := (C5_amended_cargo.2 "serde" "1.0.0" (by decide) (by decide)).2
    rw [show ("serde" : String) ++ " = \x7b version = \"" ++ "1.0.0" ++ "\" \x7d"
        = "serde = \x7b version = \"1.0.0\" \x7d" from by decide] at h
    exact h

/-! ## Claim C6: Maven same-line tag pairing -/

/-- C6: while scanning a pom.xml, `<dependencies>` / `</dependencies>`
substring matches toggle the state and emit nothing; inside the
section a line emits a record exactly when it contains both
`<artifactId>` and `</artifactId>` and both the artifactId text and
the version text extracted FROM THAT SAME LINE are non-empty — so the
idiomatic layout with `<artifactId>` and `<version>` on separate
physical lines yields zero records, while the same-line layout yields
the paired record. -/
theorem C6_maven_same_line :
    (∀ (s : Bool) (rawLine : String),
      (strContains (goTrimSpace rawLine) "<dependencies>" = true →
        mavenLineStep s rawLine = (true, [])) ∧
      (strContains (goTrimSpace rawLine) "<dependencies>" = false →
        strContains (goTrimSpace rawLine) "</dependencies>" = true →
        mavenLineStep s rawLine = (false, [])) ∧
      ((mavenLineStep s rawLine).2 ≠ [] ↔
        (s = true ∧ strContains (goTrimSpace rawLine) "<dependencies>" = false ∧
         strContains (goTrimSpace rawLine) "</dependencies>" = false ∧
         strContains (goTrimSpace rawLine) "<artifactId>" = true ∧
         strContains (goTrimSpace rawLine) "</artifactId>" = true ∧
         extractTag (goTrimSpace rawLine) "artifactId" ≠ "" ∧
         extractTag (goTrimSpace rawLine) "version" ≠ "")) ∧
      ((mavenLineStep s rawLine).2 ≠ [] →
        (mavenLineStep s rawLine).2 =
          [{ name := extractTag (goTrimSpace rawLine) "artifactId",
             version := extractTag (goTrimSpace rawLine) "version",
             supplier := "maven",
             purl := "pkg:maven/" ++ extractTag (goTrimSpace rawLine) "artifactId" ++ "@"
               ++ extractTag (goTrimSpace rawLine) "version" }])) ∧
    parsePomXML
      "<dependencies>\n<artifactId>guava</artifactId>\n<version>31.1-jre</version>\n</dependencies>"
      = [] ∧
    parsePomXML
      "<dependencies>\n<artifactId>guava</artifactId><version>31.1-jre</version>\n</dependencies>"
      = [{ name := "guava", version := "31.1-jre", supplier := "maven",
           purl := "pkg:maven/guava@31.1-jre" }] := by
  refine ⟨fun s rawLine => ?_, by decide, by decide⟩
  by_cases h1 : strContains (goTrimSpace rawLine) "<dependencies>" = true
  · have hval : mavenLineStep s rawLine = (true, []) := by
      simp [mavenLineStep, h1]
    rw [hval]
    simp [h1]
  · have h1f : strContains (goTrimSpace rawLine) "<dependencies>" = false := by
      simpa using h1
    by_cases h2 : strContains (goTrimSpace rawLine) "</dependencies>" = true
    · have hval : mavenLineStep s rawLine = (false, []) := by
        simp [mavenLineStep, h1f, h2]
      rw [hval]
      simp [h1f, h2]
    · have h2f : strContains (goTrimSpace rawLine) "</dependencies>" = false := by
        simpa using h2
      cases s with
      | false =>
        have hval : mavenLineStep false rawLine = (false, []) := by
          simp [mavenLineStep, h1f, h2f]
        rw [hval]
        simp [h1f, h2f]
      | true =>
        by_cases h3 : (strContains (goTrimSpace rawLine) "<artifactId>"
            && strContains (goTrimSpace rawLine) "</artifactId>") = true
        · have h3p := h3
          rw [Bool.and_eq_true] at h3p
          by_cases h4 : (extractTag (goTrimSpace rawLine) "artifactId" != ""
              && extractTag (goTrimSpace rawLine) "version" != "") = true
          · have h4p := h4
            rw [Bool.and_eq_true, bne_iff_ne, bne_iff_ne] at h4p
            have hval : mavenLineStep true rawLine =
                (true, [{ name := extractTag (goTrimSpace rawLine) "artifactId",
                          version := extractTag (goTrimSpace rawLine) "version",
                          supplier := "maven",
                          purl := "pkg:maven/" ++ extractTag (goTrimSpace rawLine) "artifactId"
                            ++ "@" ++ extractTag (goTrimSpace rawLine) "version" }]) := by
              simp [mavenLineStep, h1f, h2f, h3, h4]
            rw [hval]
            refine ⟨?_, ?_, ?_, ?_⟩
            · intro hx
              simp [h1f] at hx
            · intro _ hx
              simp [h2f] at hx
            · constructor
              · intro _
                exact ⟨rfl, h1f, h2f, h3p.1, h3p.2, h4p.1, h4p.2⟩
              · intro _
                simp
            · intro _
              rfl
          · have h4p : ¬(extractTag (goTrimSpace rawLine) "artifactId" ≠ "" ∧
                extractTag (goTrimSpace rawLine) "version" ≠ "") := by
              intro hc
              apply h4
              rw [Bool.and_eq_true, bne_iff_ne, bne_iff_ne]
              exact hc
            have hval : mavenLineStep true rawLine = (true, []) := by
              simp [mavenLineStep, h1f, h2f, h3, h4]
            rw [hval]
            refine ⟨?_, ?_, ?_, ?_⟩
            · intro hx
              simp [h1f] at hx
            · intro _ hx
              simp [h2f] at hx
            · constructor
              · intro hx
                exact absurd rfl hx
              · intro hc
                exact absurd ⟨hc.2.2.2.2.2.1, hc.2.2.2.2.2.2⟩ h4p
            · intro hx
              exact absurd rfl hx
        · have h3p : ¬(strContains (goTrimSpace rawLine) "<artifactId>" = true ∧
              strContains (goTrimSpace rawLine) "</artifactId>" = true) := by
            intro hc
            apply h3
            rw [Bool.and_eq_true]
            exact hc
          have hval : mavenLineStep true rawLine = (true, []) := by
            simp [mavenLineStep, h1f, h2f, h3]
          rw [hval]
          refine ⟨?_, ?_, ?_, ?_⟩
          · intro hx
            simp [h1f] at hx
          · intro _ hx
            simp [h2f] at hx
          · constructor
            · intro hx
              exact absurd rfl hx
            · intro hc
              exact absurd ⟨hc.2.2.2.1, hc.2.2.2.2.1⟩ h3p
          · intro hx
            exact absurd rfl hx

/-- C6, witness: the claim theorem evaluated at the same-line fixture
line with the state inside the section. -/
theorem C6_maven_same_line_witness :
    (mavenLineStep true "<artifactId>guava</artifactId><version>31.1-jre</version>").2 =
      [{ name := "guava", version := "31.1-jre", supplier := "maven",
         purl := "pkg:maven/guava@31.1-jre" }] := by
  have h := ((C6_maven_same_line.1 true
      "<artifactId>guava</artifactId><version>31.1-jre</version>").2.2.2) (by decide)
  rw [h]
  decide

/-! ## Claim C7: the go.mod line heuristic -/

/-- The final path segment exactly as the claim words it: the text
after the last `/` (no trailing-slash normalisation). -/
def afterLastSlash (s : String) : String :=
  String.mk ((s.data.reverse.takeWhile (· ≠ '/')).reverse)

/-- The claim's candidate test as stated: `require `-prefixed, or
non-empty and containing at least one whitespace character. -/
def goSpecCandidate (line : String) : Bool :=
  strStartsWith line "require " || (line != "" && line.data.any Char.isWhitespace)

/-- The claim's per-line records, as stated. -/
def goSpecLineComponents (rawLine : String) : List Component :=
  let line := goTrimSpace rawLine
  if goSpecCandidate line then
    match goFields line with
    | p0 :: p1 :: _ =>
      let name := goTrimSpace p0
      let version := goTrimSpace p1
      [{ name := afterLastSlash name, version := version, supplier := "go",
         purl := "pkg:go/" ++ afterLastSlash name ++ "@" ++ version }]
    | _ => []
  else []

/-- C7, counterexample.  The code's candidate test checks for a
literal space (`strings.Contains(line, " ")`), not "at least one
whitespace character": a tab-separated pair yields no record even
though the claim demands one.  And the name is Go `filepath.Base`,
which strips trailing slashes, not "the text after the last `/`": on
first field `a/` the code emits name `a` whereas the claim demands
the empty name. -/
theorem C7_counterexample :
    goLineComponents "foo\tv1.0" = [] ∧
    goSpecLineComponents "foo\tv1.0" =
      [{ name := "foo", version := "v1.0", supplier := "go", purl := "pkg:go/foo@v1.0" }] ∧
    goLineComponents "foo\tv1.0" ≠ goSpecLineComponents "foo\tv1.0" ∧
    goLineComponents "a/ v1" =
      [{ name := "a", version := "v1", supplier := "go", purl := "pkg:go/a@v1" }] ∧
    goSpecLineComponents "a/ v1" =
      [{ name := "", version := "v1", supplier := "go", purl := "pkg:go/@v1" }] ∧
    goLineComponents "a/ v1" ≠ goSpecLineComponents "a/ v1" :=
  ⟨by decide, by decide, by decide, by decide, by decide, by decide⟩

/-- The amended candidate test: `require `-prefix, or non-empty and
containing a space character (U+0020). -/
def goAmendedCandidate (line : String) : Bool :=
  strStartsWith line "require " || (line != "" && line.data.contains ' ')

/-- The amended per-line rule: the name is Go `filepath.Base` of the
first field (trailing slashes stripped, an all-slash field giving
`/`). -/
def goAmendedLineComponents (rawLine : String) : List Component :=
  let line := goTrimSpace rawLine
  if goAmendedCandidate line then
    match goFields line with
    | p0 :: p1 :: _ =>
      let name := goTrimSpace p0
      let version := goTrimSpace p1
      [{ name := goBase name, version := version, supplier := "go",
         purl := "pkg:go/" ++ goBase name ++ "@" ++ version }]
    | _ => []
  else []

/-- A single-character search succeeds exactly on membership. -/
theorem findSub_single_isSome (cs : List Char) (ch : Char) :
    (findSub cs [ch]).isSome = cs.contains ch := by
  induction cs with
  | nil => rfl
  | cons c tl ih =>
    unfold findSub
    by_cases h : ch = c
    · subst h
      rw [show [ch].isPrefixOf (ch :: tl) = true by simp [List.isPrefixOf]]
      simp
    · rw [isPrefixOf_cons_false ch c [] tl h]
      simp only [Bool.false_eq_true, if_false]
      have hmap : (Option.map (fun x => x + 1) (findSub tl [ch])).isSome
          = (findSub tl [ch]).isSome := by
        cases findSub tl [ch] <;> rfl
      rw [hmap, ih]
      have hcc : (ch == c) = false := by
        simp only [beq_eq_false_iff_ne, ne_eq]
        exact h
      rw [List.contains_cons, hcc, Bool.false_or]

/-- `strings.Contains(line, " ")` is exactly membership of the space
character. -/
theorem strContains_space (s : String) : strContains s " " = s.data.contains ' ' := by
  unfold strContains goIndex
  exact findSub_single_isSome s.data ' '

/-- C7, amended: a trimmed go.mod line is a candidate exactly when it
starts with the literal token `require ` or is non-empty and contains
at least one space character (U+0020); for every candidate line that
splits on whitespace into at least two fields, exactly one record is
emitted whose name is the first field's final path segment in the
sense of Go `filepath.Base` (trailing slashes stripped first, an
all-slash field giving `/`) and whose version is the second field. -/
theorem C7_amended_go :
    (∀ line : String, goCandidate line = goAmendedCandidate line) ∧
    (∀ rawLine : String, goLineComponents rawLine = goAmendedLineComponents rawLine) := by
  have hc : ∀ line : String, goCandidate line = goAmendedCandidate line := by
    intro line
    unfold goCandidate goAmendedCandidate
    rw [strContains_space]
  refine ⟨hc, fun rawLine => ?_⟩
  simp only [goLineComponents, goAmendedLineComponents, hc]

/-! ## Claim C8: the package-URL invariant -/

/-- The canonical composition of the claim: the stored package URL is
exactly `pkg:` + the record's own supplier + `/` + name + `@` +
version. -/
def purlCanonicalB (c : Component) : Bool :=
  c.purl == "pkg:" ++ c.supplier ++ "/" ++ c.name ++ "@" ++ c.version

/-- Any record built with a literal `pkg:<eco>/` head satisfies the
canonical composition. -/
theorem purl_mk (eco n v pre : String) (m : Metadata)
    (hpre : pre = "pkg:" ++ eco ++ "/") :
    purlCanonicalB { name := n, version := v, supplier := eco,
                     purl := pre ++ n ++ "@" ++ v, metadata := m } = true := by
  subst hpre
  simp [purlCanonicalB]

/-- Every npm record is canonical. -/
theorem npmComponents_purl (pkg : NpmPkg) :
    ∀ c ∈ npmComponents pkg, purlCanonicalB c = true := by
  intro c hc
  unfold npmComponents at hc
  rcases List.mem_append.mp hc with h | h <;>
    rcases List.mem_map.mp h with ⟨e, -, rfl⟩ <;>
    exact purl_mk "npm" e.1 e.2 "pkg:npm/" _ (by decide)

/-- Every record of one requirements.txt line is canonical. -/
theorem pypiLineComponents_purl (rawLine : String) :
    ∀ c ∈ pypiLineComponents rawLine, purlCanonicalB c = true := by
  intro c hc
  simp only [pypiLineComponents] at hc
  by_cases h : (goTrimSpace rawLine == "" || strStartsWith (goTrimSpace rawLine) "#") = true
  · rw [if_pos h] at hc
    cases hc
  · rw [if_neg h] at hc
    rcases hp : pypiPickParts (goTrimSpace rawLine) with _ | ⟨p0, tl0⟩
    · rw [hp] at hc
      simp at hc
    · rcases tl0 with _ | ⟨p1, tl⟩
      · rw [hp] at hc
        simp at hc
      · rw [hp] at hc
        simp only [List.mem_singleton] at hc
        subst hc
        exact purl_mk "pypi" _ _ "pkg:pypi/" _ (by decide)

/-- Every pypi record is canonical. -/
theorem pypiParse_purl (content : String) :
    ∀ c ∈ pypiParse content, purlCanonicalB c = true := by
  intro c hc
  unfold pypiParse at hc
  rcases List.mem_flatMap.mp hc with ⟨l, -, hcl⟩
  exact pypiLineComponents_purl l c hcl

/-- Every record of one go.mod line is canonical. -/
theorem goLineComponents_purl (rawLine : String) :
    ∀ c ∈ goLineComponents rawLine, purlCanonicalB c = true := by
  intro c hc
  simp only [goLineComponents] at hc
  by_cases h : goCandidate (goTrimSpace rawLine) = true
  · rw [if_pos h] at hc
    rcases hp : goFields (goTrimSpace rawLine) with _ | ⟨p0, tl0⟩
    · rw [hp] at hc
      simp at hc
    · rcases tl0 with _ | ⟨p1, tl⟩
      · rw [hp] at hc
        simp at hc
      · rw [hp] at hc
        simp only [List.mem_singleton] at hc
        subst hc
        exact purl_mk "go" _ _ "pkg:go/" _ (by decide)
  · rw [if_neg h] at hc
    cases hc

/-- Every go record is canonical. -/
theorem goParse_purl (content : String) :
    ∀ c ∈ goParse content, purlCanonicalB c = true := by
  intro c hc
  unfold goParse at hc
  rcases List.mem_flatMap.mp hc with ⟨l, -, hcl⟩
  exact goLineComponents_purl l c hcl

/-- Every record of one Cargo.toml dependency entry is canonical. -/
theorem cargoEntryComponents_purl (line : String) :
    ∀ c ∈ cargoEntryComponents line, purlCanonicalB c = true := by
  intro c hc
  rcases hs : goSplitN2 line "=" with _ | ⟨p0, _ | ⟨p1, _ | ⟨p2, t⟩⟩⟩ <;>
    simp only [cargoEntryComponents, hs, List.not_mem_nil] at hc
  by_cases hb : strStartsWith (goTrimSpace p1) "\x7b" = true
  · rw [if_pos hb] at hc
    rcases hi : goIndex (goTrimSpace p1) "\"" with _ | vs <;>
      simp only [hi, List.not_mem_nil] at hc
    rcases hj : goIndex (strDrop (goTrimSpace p1) (vs + 1)) "\"" with _ | ve <;>
      simp only [hj, List.not_mem_nil] at hc
    rw [List.mem_singleton] at hc
    subst hc
    exact purl_mk "cargo" _ _ "pkg:cargo/" _ (by decide)
  · rw [if_neg hb] at hc
    rw [List.mem_singleton] at hc
    subst hc
    exact purl_mk "cargo" _ _ "pkg:cargo/" _ (by decide)

/-- Every record of one Cargo.toml line step is canonical. -/
theorem cargoLineStep_purl (s : Bool) (rawLine : String) :
    ∀ c ∈ (cargoLineStep s rawLine).2, purlCanonicalB c = true := by
  intro c hc
  simp only [cargoLineStep] at hc
  by_cases h1 : strStartsWith (goTrimSpace rawLine) "[dependencies]" = true
  · rw [if_pos h1] at hc
    cases hc
  · rw [if_neg h1] at hc
    by_cases h2 : strStartsWith (goTrimSpace rawLine) "[" = true
    · rw [if_pos h2] at hc
      cases hc
    · rw [if_neg h2] at hc
      by_cases h3 : (s && goTrimSpace rawLine != "" && !strStartsWith (goTrimSpace rawLine) "#") = true
      · rw [if_pos h3] at hc
        exact cargoEntryComponents_purl (goTrimSpace rawLine) c hc
      · rw [if_neg h3] at hc
        cases hc

/-- Every record of one pom.xml line step is canonical. -/
theorem mavenLineStep_purl (s : Bool) (rawLine : String) :
    ∀ c ∈ (mavenLineStep s rawLine).2, purlCanonicalB c = true := by
  intro c hc
  simp only [mavenLineStep] at hc
  by_cases h1 : strContains (goTrimSpace rawLine) "<dependencies>" = true
  · rw [if_pos h1] at hc
    cases hc
  · rw [if_neg h1] at hc
    by_cases h2 : strContains (goTrimSpace rawLine) "</dependencies>" = true
    · rw [if_pos h2] at hc
      cases hc
    · rw [if_neg h2] at hc
      by_cases h3 : s = true
      · rw [if_pos h3] at hc
        by_cases h4 : (strContains (goTrimSpace rawLine) "<artifactId>" &&
            strContains (goTrimSpace rawLine) "</artifactId>") = true
        · rw [if_pos h4] at hc
          by_cases h5 : (extractTag (goTrimSpace rawLine) "artifactId" != "" &&
              extractTag (goTrimSpace rawLine) "version" != "") = true
          · rw [if_pos h5] at hc
            simp only [List.mem_singleton] at hc
            subst hc
            exact purl_mk "maven" _ _ "pkg:maven/" _ (by decide)
          · rw [if_neg h5] at hc
            cases hc
        · rw [if_neg h4] at hc
          cases hc
      · rw [if_neg h3] at hc
        cases hc

/-- A property holding of every step emission and of the seed
accumulator holds of the stateful fold's aggregate. -/
theorem foldl_emit_mem (P : Component → Prop) (step : Bool → String → Bool × List Component)
    (hstep : ∀ s l, ∀ c ∈ (step s l).2, P c) :
    ∀ (ls : List String) (sa : Bool × List Component),
      (∀ c ∈ sa.2, P c) →
      ∀ c ∈ (ls.foldl (fun acc l => let r := step acc.1 l; (r.1, acc.2 ++ r.2)) sa).2, P c := by
  intro ls
  induction ls with
  | nil =>
    intro sa hsa c hc
    exact hsa c hc
  | cons l tl ih =>
    intro sa hsa c hc
    rw [List.foldl_cons] at hc
    refine ih _ ?_ c hc
    intro d hd
    simp only [List.mem_append] at hd
    rcases hd with hd | hd
    · exact hsa d hd
    · exact hstep sa.1 l d hd

/-- Every cargo record is canonical. -/
theorem cargoParse_purl (content : String) :
    ∀ c ∈ cargoParse content, purlCanonicalB c = true := by
  intro c hc
  unfold cargoParse at hc
  exact foldl_emit_mem (fun d => purlCanonicalB d = true) cargoLineStep cargoLineStep_purl
    (goSplit content "\n") (false, []) (fun d hd => by cases hd) c hc

/-- Every maven record is canonical. -/
theorem parsePomXML_purl (content : String) :
    ∀ c ∈ parsePomXML content, purlCanonicalB c = true := by
  intro c hc
  unfold parsePomXML at hc
  exact foldl_emit_mem (fun d => purlCanonicalB d = true) mavenLineStep mavenLineStep_purl
    (goSplit content "\n") (false, []) (fun d hd => by cases hd) c hc

/-- A successful analyzer run yields only canonical records, whichever
of the five analyzers ran. -/
theorem analyze_ok_purl (a : AnalyzerI) (ha : a ∈ analyzers) (r : Option Content)
    (l : List Component) (hl : a.analyze r = Except.ok l) :
    ∀ c ∈ l, purlCanonicalB c = true := by
  intro c hc
  simp only [analyzers, List.mem_cons, List.not_mem_nil, or_false] at ha
  rcases r with _ | c0
  · rcases ha with rfl | rfl | rfl | rfl | rfl
    · cases hl
    · cases hl
    · cases hl
    · cases hl
    · cases hl
  · rcases ha with rfl | rfl | rfl | rfl | rfl
    · rw [show npmAnalyzerI.analyze (some c0) = NPMAnalyze (some c0) from rfl] at hl
      rcases hj : c0.jsonView with _ | pkg <;> simp only [NPMAnalyze, hj] at hl
      · cases hl
      · cases hl
        exact npmComponents_purl pkg c hc
    · rw [show pypiAnalyzerI.analyze (some c0) = Except.ok (pypiParse c0.text) from rfl] at hl
      cases hl
      exact pypiParse_purl c0.text c hc
    · rw [show goAnalyzerI.analyze (some c0) = Except.ok (goParse c0.text) from rfl] at hl
      cases hl
      exact goParse_purl c0.text c hc
    · rw [show cargoAnalyzerI.analyze (some c0) = Except.ok (cargoParse c0.text) from rfl] at hl
      cases hl
      exact cargoParse_purl c0.text c hc
    · rw [show mavenAnalyzerI.analyze (some c0) = Except.ok (parsePomXML c0.text) from rfl] at hl
      cases hl
      exact parsePomXML_purl c0.text c hc

/-- One analyzer's contribution at a visited path is all canonical. -/
theorem analyzerContribution_purl (a : AnalyzerI) (ha : a ∈ analyzers)
    (path : String) (r : Option Content) :
    ∀ c ∈ analyzerContribution a path r, purlCanonicalB c = true := by
  intro c hc
  unfold analyzerContribution at hc
  by_cases hs : a.shouldAnalyze path = true
  · rw [if_pos hs] at hc
    rcases hl : a.analyze r with e | l <;> rw [hl] at hc
    · simp at hc
    · exact analyze_ok_purl a ha r l hl c hc
  · rw [if_neg hs] at hc
    cases hc

/-- Everything the walk callback's analyzer loop emits at one path is
canonical. -/
theorem runAnalyzers_purl (path : String) (r : Option Content) :
    ∀ c ∈ runAnalyzers path r, purlCanonicalB c = true := by
  intro c hc
  unfold runAnalyzers at hc
  rcases List.mem_flatMap.mp hc with ⟨a, ha, hca⟩
  exact analyzerContribution_purl a ha path r c hca

/-- Everything one callback invocation emits is canonical. -/
theorem walkFn_purl (path : String) (node : Option FS) (err : Option String) :
    ∀ c ∈ (walkFn path node err).1, purlCanonicalB c = true := by
  intro c hc
  rcases err with _ | e
  · rcases node with _ | nd
    · simp only [walkFn, List.not_mem_nil] at hc
    · by_cases h : (nd.isDir && prunedName nd.fname) = true
      · simp only [walkFn, h, if_true, List.not_mem_nil] at hc
      · have h2 : (nd.isDir && prunedName nd.fname) = false := by simpa using h
        simp only [walkFn, h2, Bool.false_eq_true, if_false] at hc
        exact runAnalyzers_purl path (readFile nd) c hc
  · simp only [walkFn, List.not_mem_nil] at hc

mutual

/-- Everything collected while walking a subtree is canonical. -/
theorem walkNode_purl (t : FS) (path : String) :
    ∀ c ∈ (walkNode t path).1, purlCanonicalB c = true := by
  cases t with
  | file n co =>
    rw [walkNode]
    exact walkFn_purl path (some (.file n co)) none
  | broken n =>
    rw [walkNode]
    exact walkFn_purl path (some (.broken n)) none
  | dir n readErr cs =>
    cases readErr with
    | true =>
      rw [walkNode]
      exact walkFn_purl path (some (.dir n true cs)) (some "readdir error")
    | false =>
      rw [walkNode]
      rcases walkFn_ret path (some (.dir n false cs)) none with h | h <;>
        simp only [h] <;> intro c hc
      · simp only [List.mem_append] at hc
        rcases hc with hc | hc
        · exact walkFn_purl path (some (.dir n false cs)) none c hc
        · exact walkChildren_purl cs path c hc
      · exact walkFn_purl path (some (.dir n false cs)) none c hc

/-- Everything collected by the child loop is canonical. -/
theorem walkChildren_purl (l : List FS) (dirPath : String) :
    ∀ c ∈ (walkChildren l dirPath).1, purlCanonicalB c = true := by
  cases l with
  | nil =>
    rw [walkChildren]
    intro c hc
    cases hc
  | cons c0 cs =>
    cases c0 with
    | broken n =>
      rw [walkChildren_cons_broken]
      exact walkChildren_purl cs dirPath
    | file n co =>
      rw [walkChildren_cons_file]
      intro c hc
      simp only [List.mem_append] at hc
      rcases hc with hc | hc
      · exact runAnalyzers_purl (dirPath ++ "/" ++ n) co c hc
      · exact walkChildren_purl cs dirPath c hc
    | dir n e cs2 =>
      rw [walkChildren_cons_dir]
      intro c hc
      simp only [List.mem_append] at hc
      rcases hc with hc | hc
      · exact walkNode_purl (.dir n e cs2) (dirPath ++ "/" ++ n) c hc
      · exact walkChildren_purl cs dirPath c hc

end

/-- C8: every record emitted by any of the five ecosystem parsers, and
every record in the aggregate that `AnalyzeDir` finally returns,
carries `purl = "pkg:" ++ supplier ++ "@"-composition` of its own
stored fields — the URL is fixed at record creation and, records being
values appended into the aggregate and never rewritten, still has that
exact shape in the final result. -/
theorem C8_purl_invariant :
    (∀ pkg : NpmPkg, ∀ c ∈ npmComponents pkg, purlCanonicalB c = true) ∧
    (∀ content : String, ∀ c ∈ pypiParse content, purlCanonicalB c = true) ∧
    (∀ content : String, ∀ c ∈ goParse content, purlCanonicalB c = true) ∧
    (∀ content : String, ∀ c ∈ cargoParse content, purlCanonicalB c = true) ∧
    (∀ content : String, ∀ c ∈ parsePomXML content, purlCanonicalB c = true) ∧
    (∀ (root : Option FS) (dir : String) (l : List Component) (c : Component),
      AnalyzeDir root dir = Except.ok l → c ∈ l → purlCanonicalB c = true) := by
  refine ⟨npmComponents_purl, pypiParse_purl, goParse_purl, cargoParse_purl,
    parsePomXML_purl, ?_⟩
  intro root dir l c hok hc
  have h := (analyzeDir_ok root dir).symm.trans hok
  cases h
  rcases root with _ | nd
  · cases hc
  · rw [Walk_some] at hc
    exact walkNode_purl nd dir c hc

/-- C8, witness: the invariant applied through the full pipeline on a
concrete project tree and its one record. -/
theorem C8_purl_invariant_witness : purlCanonicalB expressComponent = true :=
  C8_purl_invariant.2.2.2.2.2 (some treeManifestOutside) "proj" [expressComponent]
    expressComponent (by decide) (by decide)

/-! ## Claim C9: two-run determinism

Go's map iteration order is deliberately randomised: two runs of the
program over the same unchanged directory read the same bytes but may
range over a decoded `package.json` dependency map in different
orders.  Two runs are therefore modelled as two snapshots with the
same tree shape, the same names, the same file bytes, and the same
decoded JSON maps up to entry order. -/

/-- The same decoded package seen in two map-range orders. -/
def pkgEquiv (p q : NpmPkg) : Prop :=
  p.dependencies.Perm q.dependencies ∧ p.devDeps.Perm q.devDeps

/-- The same decode outcome up to map order. -/
def optViewEquiv : Option NpmPkg → Option NpmPkg → Prop
  | none, none => True
  | some p, some q => pkgEquiv p q
  | _, _ => False

/-- The same file seen by two runs: identical bytes, hence the same
decode outcome, with the decoded maps ranged in possibly different
orders. -/
def contentEquiv (c d : Content) : Prop :=
  c.text = d.text ∧ optViewEquiv c.jsonView d.jsonView

/-- The same read outcome of one file in two runs. -/
def optContentEquiv : Option Content → Option Content → Prop
  | none, none => True
  | some c, some d => contentEquiv c d
  | _, _ => False

mutual

/-- Two snapshots of the same unchanged directory tree across two
runs. -/
inductive SameSnap : FS → FS → Prop where
  | file : ∀ (n : String) (c d : Option Content),
      optContentEquiv c d → SameSnap (.file n c) (.file n d)
  | broken : ∀ n : String, SameSnap (.broken n) (.broken n)
  | dir : ∀ (n : String) (e : Bool) (cs ds : List FS),
      SameSnapL cs ds → SameSnap (.dir n e cs) (.dir n e ds)

/-- `SameSnap` entrywise on directory listings. -/
inductive SameSnapL : List FS → List FS → Prop where
  | nil : SameSnapL [] []
  | cons : ∀ (c d : FS) (cs ds : List FS),
      SameSnap c d → SameSnapL cs ds → SameSnapL (c :: cs) (d :: ds)

end

/-- The npm records of the two range orders are the same multiset. -/
theorem npmComponents_perm (p q : NpmPkg) (h : pkgEquiv p q) :
    (npmComponents p).Perm (npmComponents q) :=
  (h.1.map _).append (h.2.map _)

/-- A text-driven analyzer contributes identically for two contents
with the same bytes. -/
theorem contribution_text_eq (a : AnalyzerI) (parse : String → List Component)
    (hval : ∀ c : Content, a.analyze (some c) = Except.ok (parse c.text))
    (path : String) (c d : Content) (ht : c.text = d.text) :
    analyzerContribution a path (some c) = analyzerContribution a path (some d) := by
  unfold analyzerContribution
  rw [hval c, hval d, ht]

/-- The npm analyzer's contributions for the two range orders are the
same multiset. -/
theorem npm_contribution_perm (path : String) (c d : Content)
    (hv : optViewEquiv c.jsonView d.jsonView) :
    (analyzerContribution npmAnalyzerI path (some c)).Perm
      (analyzerContribution npmAnalyzerI path (some d)) := by
  unfold analyzerContribution
  by_cases hs : npmAnalyzerI.shouldAnalyze path = true
  · rw [if_pos hs, if_pos hs]
    rcases hc : c.jsonView with _ | p <;> rcases hd : d.jsonView with _ | q <;>
      rw [hc, hd] at hv <;>
      simp only [show npmAnalyzerI.analyze = NPMAnalyze from rfl, NPMAnalyze, hc, hd]
    · exact List.Perm.refl _
    · exact hv.elim
    · exact hv.elim
    · exact npmComponents_perm p q hv
  · rw [if_neg hs, if_neg hs]

/-- The analyzer loop's records at one path in the two runs are the
same multiset. -/
theorem runAnalyzers_perm (path : String) (r₁ r₂ : Option Content)
    (h : optContentEquiv r₁ r₂) :
    (runAnalyzers path r₁).Perm (runAnalyzers path r₂) := by
  rcases r₁ with _ | c <;> rcases r₂ with _ | d
  · exact List.Perm.refl _
  · exact h.elim
  · exact h.elim
  · obtain ⟨ht, hv⟩ := h
    unfold runAnalyzers analyzers
    simp only [List.flatMap_cons, List.flatMap_nil, List.append_nil]
    refine List.Perm.append (npm_contribution_perm path c d hv) ?_
    rw [contribution_text_eq pypiAnalyzerI pypiParse (fun _ => rfl) path c d ht,
        contribution_text_eq goAnalyzerI goParse (fun _ => rfl) path c d ht,
        contribution_text_eq cargoAnalyzerI cargoParse (fun _ => rfl) path c d ht,
        contribution_text_eq mavenAnalyzerI parsePomXML (fun _ => rfl) path c d ht]

mutual

/-- Across two runs, the records collected under one subtree are the
same multiset and the walk result is identical. -/
theorem walkNode_perm (t₁ t₂ : FS) (path : String) (h : SameSnap t₁ t₂) :
    (walkNode t₁ path).1.Perm (walkNode t₂ path).1 ∧
    (walkNode t₁ path).2 = (walkNode t₂ path).2 := by
  cases h with
  | file n c d hcd =>
    rw [walkNode_file, walkNode_file]
    exact ⟨runAnalyzers_perm path c d hcd, rfl⟩
  | broken n =>
    exact ⟨List.Perm.refl _, rfl⟩
  | dir n e cs ds hl =>
    cases e with
    | true =>
      rw [walkNode_dir_readErr, walkNode_dir_readErr]
      exact ⟨List.Perm.refl _, rfl⟩
    | false =>
      by_cases hp : prunedName n = true
      · rw [walkNode_dir_pruned _ _ _ hp, walkNode_dir_pruned _ _ _ hp]
        exact ⟨List.Perm.refl _, rfl⟩
      · have hp2 : prunedName n = false := by simpa using hp
        rw [walkNode_dir_plain _ _ _ hp2, walkNode_dir_plain _ _ _ hp2]
        obtain ⟨hperm, heq⟩ := walkChildren_perm cs ds path hl
        exact ⟨(List.Perm.refl _).append hperm, heq⟩

/-- Across two runs, the records collected by one child loop are the
same multiset and the loop result is identical. -/
theorem walkChildren_perm (l₁ l₂ : List FS) (p : String) (h : SameSnapL l₁ l₂) :
    (walkChildren l₁ p).1.Perm (walkChildren l₂ p).1 ∧
    (walkChildren l₁ p).2 = (walkChildren l₂ p).2 := by
  cases h with
  | nil =>
    exact ⟨List.Perm.refl _, rfl⟩
  | cons c d cs ds hcd hl =>
    have hnode := walkNode_perm c d (p ++ "/" ++ c.fname) hcd
    have hrest := walkChildren_perm cs ds p hl
    cases hcd with
    | file n c₁ c₂ hcc =>
      rw [walkChildren_cons_file, walkChildren_cons_file]
      exact ⟨(runAnalyzers_perm (p ++ "/" ++ n) c₁ c₂ hcc).append hrest.1, hrest.2⟩
    | broken n =>
      rw [walkChildren_cons_broken, walkChildren_cons_broken]
      exact hrest
    | dir n e cs2 ds2 hsub =>
      rw [walkChildren_cons_dir, walkChildren_cons_dir]
      exact ⟨hnode.1.append hrest.1, hrest.2⟩

end

/-- A one-manifest project as the first run's map order sees it. -/
def snapA : FS :=
  .dir "proj" false
    [.file "package.json"
      (some { text := "x", jsonView := some { dependencies := [("a", "1"), ("b", "2")] } })]

/-- The same unchanged project as a second run may see it: same bytes,
the dependency map ranged in the opposite order. -/
def snapB : FS :=
  .dir "proj" false
    [.file "package.json"
      (some { text := "x", jsonView := some { dependencies := [("b", "2"), ("a", "1")] } })]

/-- The two snapshots depict the same unchanged directory. -/
theorem snapA_samesnap_snapB : SameSnap snapA snapB := by
  refine SameSnap.dir "proj" false _ _ ?_
  refine SameSnapL.cons _ _ _ _ ?_ SameSnapL.nil
  refine SameSnap.file "package.json" _ _ ?_
  show contentEquiv _ _
  refine ⟨rfl, ?_⟩
  show pkgEquiv _ _
  exact ⟨List.Perm.swap _ _ _, List.Perm.refl _⟩

/-- C9, counterexample.  The claim demands two result lists equal in
content and order.  The underlying key-value container of the decoded
manifest has no defined iteration order, so a second run over the
unchanged directory may range the same map in another order: the two
aggregates then hold the same records in different orders, and
order-sensitive equality fails. -/
theorem C9_counterexample :
    SameSnap snapA snapB ∧
    AnalyzeDir (some snapA) "proj" = Except.ok
      [{ name := "a", version := "1", supplier := "npm", purl := "pkg:npm/a@1" },
       { name := "b", version := "2", supplier := "npm", purl := "pkg:npm/b@2" }] ∧
    AnalyzeDir (some snapB) "proj" = Except.ok
      [{ name := "b", version := "2", supplier := "npm", purl := "pkg:npm/b@2" },
       { name := "a", version := "1", supplier := "npm", purl := "pkg:npm/a@1" }] ∧
    AnalyzeDir (some snapA) "proj" ≠ AnalyzeDir (some snapB) "proj" :=
  ⟨snapA_samesnap_snapB, by decide, by decide, by decide⟩

/-- C9, amended: both runs over the unchanged directory succeed, and
the two aggregates are equal as multisets (a permutation of one
another); the emitted order within one manifest's map-derived records
is unspecified. -/
theorem C9_amended_two_runs (t₁ t₂ : FS) (dir : String) (h : SameSnap t₁ t₂) :
    ∃ l₁ l₂, AnalyzeDir (some t₁) dir = Except.ok l₁ ∧
      AnalyzeDir (some t₂) dir = Except.ok l₂ ∧ l₁.Perm l₂ := by
  refine ⟨(Walk (some t₁) dir).1, (Walk (some t₂) dir).1,
    analyzeDir_ok _ _, analyzeDir_ok _ _, ?_⟩
  rw [Walk_some, Walk_some]
  exact (walkNode_perm t₁ t₂ dir h).1

/-- C9, witness: the amended theorem at the two concrete snapshots. -/
theorem C9_amended_two_runs_witness :
    ∃ l₁ l₂, AnalyzeDir (some snapA) "proj" = Except.ok l₁ ∧
      AnalyzeDir (some snapB) "proj" = Except.ok l₂ ∧ l₁.Perm l₂ :=
  C9_amended_two_runs snapA snapB "proj" snapA_samesnap_snapB

/-! ## Claim C10: dispatch on directories -/

/-- When every analyzer's read fails — which is exactly what
`os.ReadFile` on a directory produces — every parser returns an error,
the `continue` branch swallows it, and the whole loop contributes
nothing, whatever the path matched. -/
theorem runAnalyzers_none (path : String) : runAnalyzers path none = [] := by
  unfold runAnalyzers analyzers
  simp [analyzerContribution, npmAnalyzerI, pypiAnalyzerI, goAnalyzerI,
    cargoAnalyzerI, mavenAnalyzerI, NPMAnalyze, PyPIAnalyze, GoAnalyze,
    CargoAnalyze, MavenAnalyze]

/-- C10: the matcher dispatch runs on every visited non-pruned path,
directories included.  A directory whose base name is `package.json`
is matched by the npm analyzer; reading it fails (`ReadFile` of a
directory), the parser's error is swallowed by the `continue` branch,
so the loop contributes zero records for any path whose read failed;
visiting such a directory therefore adds nothing, the walk goes on
into its children, and the whole analysis still returns a nil error —
shown concretely on a project holding a directory named
`package.json`. -/
theorem C10_dir_dispatch :
    (∀ path : String, goBase path = "package.json" →
      npmAnalyzerI.shouldAnalyze path = true) ∧
    NPMAnalyze none = Except.error "read error" ∧
    (∀ path : String, analyzerContribution npmAnalyzerI path none = []) ∧
    (∀ path : String, runAnalyzers path none = []) ∧
    (∀ (n : String) (cs : List FS) (path : String), prunedName n = false →
      walkNode (.dir n false cs) path =
        ((walkChildren cs path).1, (walkChildren cs path).2)) ∧
    AnalyzeDir (some (.dir "proj" false
      [.dir "package.json" false [], .file "go.mod" (some { text := "a v1" })]))
      "proj" = Except.ok
      [{ name := "a", version := "v1", supplier := "go", purl := "pkg:go/a@v1" }] := by
  refine ⟨?_, rfl, ?_, runAnalyzers_none, ?_, by decide⟩
  · intro path hb
    simp [npmAnalyzerI, hb]
  · intro path
    simp [analyzerContribution, npmAnalyzerI, NPMAnalyze]
  · intro n cs path hp
    rw [walkNode_dir_plain _ _ _ hp, runAnalyzers_none]
    simp

/-- C10, witness: the theorem's dispatch and swallowing conjuncts at a
concrete directory named `package.json`. -/
theorem C10_dir_dispatch_witness :
    npmAnalyzerI.shouldAnalyze "proj/package.json" = true ∧
    runAnalyzers "proj/package.json" none = [] ∧
    walkNode (.dir "package.json" false []) "proj/package.json" = ([], WalkRet.ok) := by
  refine ⟨C10_dir_dispatch.1 "proj/package.json" (by decide),
    C10_dir_dispatch.2.2.2.1 "proj/package.json", ?_⟩
  rw [C10_dir_dispatch.2.2.2.2.1 "package.json" [] "proj/package.json" (by decide)]
  decide
